import Mathlib

/-!
# Verification of queryduck-cli core algorithms

A shallow embedding, in Lean 4, of the core algorithms of the
queryduck-cli repository (volume synchronization and statement/document
mapping), together with proofs of the specification's claims about them.

Modelling conventions used throughout:

* Python strings are modelled as `List Char`; Python byte strings as
  `List Nat`.  Comparison of strings/bytes is the lexicographic order,
  as in Python.
* Python dicts that are used as ordered path-keyed maps are modelled as
  association lists with Python's insertion semantics (an existing key
  keeps its position and gets the new value; a fresh key is appended).
* Stateful generators (`__next__`-style iterators) are modelled as
  fuel-indexed structurally recursive functions over the explicit
  iterator state; the fuel argument is instantiated with an exact bound
  so that the function computes the iterator's full output.
* Timestamps are abstract integers; ISO-8601 printing/parsing
  (`datetime.isoformat` / `fromisoformat` / `fromtimestamp`) is modelled
  as the identity on those abstract timestamps.
* The SHA-256 streaming digest of a file is modelled as an abstract
  digest string carried by the file; the chunked reads only bound
  memory, they do not change the digest value.
-/

namespace QdCli

/-! ## Stream merge-differ: `CombinedIterator` (crunchyclient/utility.py 131-176)

The iterator keeps a current element and an exhausted flag per side; its
`__next__` emits `(left, None)`, `(None, right)` or `(left, right)` and
advances the corresponding side(s).  We embed it as a function from the
two remaining input lists to the list of emitted pairs.  Each step
consumes at least one input element, so `l.length + r.length` is an
exact fuel bound. -/

/-- Fuel-indexed embedding of `CombinedIterator.__next__` iterated to
exhaustion: given the remaining left and right inputs, produce the list
of emitted pairs.  Branches mirror the source: stop when both sides are
exhausted; emit left-only when the right side is exhausted or the left
key is smaller; emit right-only when the left side is exhausted or the
left key is larger; otherwise emit the matched pair and advance both. -/
def combinedF {α β κ : Type} [LinearOrder κ] (kl : α → κ) (kr : β → κ) :
    Nat → List α → List β → List (Option α × Option β)
  | 0, _, _ => []
  | _ + 1, [], [] => []
  | f + 1, a :: as, [] => (some a, none) :: combinedF kl kr f as []
  | f + 1, [], b :: bs => (none, some b) :: combinedF kl kr f [] bs
  | f + 1, a :: as, b :: bs =>
    if kl a < kr b then (some a, none) :: combinedF kl kr f as (b :: bs)
    else if kr b < kl a then (none, some b) :: combinedF kl kr f (a :: as) bs
    else (some a, some b) :: combinedF kl kr f as bs

/-- `CombinedIterator(left, right, left_key, right_key)`, run to
exhaustion on finite inputs. -/
def combinedIterator {α β κ : Type} [LinearOrder κ] (kl : α → κ) (kr : β → κ)
    (l : List α) (r : List β) : List (Option α × Option β) :=
  combinedF kl kr (l.length + r.length) l r

/-- The key under which a pair was emitted (`none` never occurs in the
output; a matched pair is keyed by its left key, which in that case
equals its right key). -/
def emitKey {α β κ : Type} (kl : α → κ) (kr : β → κ) :
    Option α × Option β → Option κ
  | (some a, _) => some (kl a)
  | (none, some b) => some (kr b)
  | (none, none) => none

/-- Keys of the emitted pairs, in emission order. -/
def emittedKeys {α β κ : Type} (kl : α → κ) (kr : β → κ)
    (out : List (Option α × Option β)) : List κ :=
  out.filterMap (emitKey kl kr)

/-- Strictly-ascending-keys predicate for an input sequence. -/
def StrictAsc {α κ : Type} [LinearOrder κ] (k : α → κ) (l : List α) : Prop :=
  l.Pairwise (fun x y => k x < k y)

section CombinedLemmas

variable {α β κ : Type} [LinearOrder κ] {kl : α → κ} {kr : β → κ}

/-- Every emitted key comes from one of the two inputs. -/
theorem combinedF_keys_sub (f : Nat) : ∀ (l : List α) (r : List β) (k : κ),
    k ∈ emittedKeys kl kr (combinedF kl kr f l r) → k ∈ l.map kl ∨ k ∈ r.map kr := by
  induction f with
  | zero => intro l r k h; simp [combinedF, emittedKeys] at h
  | succ f ih =>
    intro l r k h
    match l, r with
    | [], [] => simp [combinedF, emittedKeys] at h
    | a :: as, [] =>
      simp only [combinedF, emittedKeys, List.filterMap_cons, emitKey] at h
      rcases List.mem_cons.mp h with h | h
      · exact Or.inl (by simp [h])
      · rcases ih as [] k h with h | h
        · exact Or.inl (by simp at h ⊢; exact Or.inr h)
        · simp at h
    | [], b :: bs =>
      simp only [combinedF, emittedKeys, List.filterMap_cons, emitKey] at h
      rcases List.mem_cons.mp h with h | h
      · exact Or.inr (by simp [h])
      · rcases ih [] bs k h with h | h
        · simp at h
        · exact Or.inr (by simp at h ⊢; exact Or.inr h)
    | a :: as, b :: bs =>
      by_cases h1 : kl a < kr b
      · simp only [combinedF, if_pos h1, emittedKeys, List.filterMap_cons, emitKey] at h
        rcases List.mem_cons.mp h with h | h
        · exact Or.inl (by simp [h])
        · rcases ih as (b :: bs) k h with h | h
          · exact Or.inl (by simp at h ⊢; exact Or.inr h)
          · exact Or.inr h
      · by_cases h2 : kr b < kl a
        · simp only [combinedF, if_neg h1, if_pos h2, emittedKeys,
            List.filterMap_cons, emitKey] at h
          rcases List.mem_cons.mp h with h | h
          · exact Or.inr (by simp [h])
          · rcases ih (a :: as) bs k h with h | h
            · exact Or.inl h
            · exact Or.inr (by simp at h ⊢; exact Or.inr h)
        · simp only [combinedF, if_neg h1, if_neg h2, emittedKeys,
            List.filterMap_cons, emitKey] at h
          rcases List.mem_cons.mp h with h | h
          · exact Or.inl (by simp [h])
          · rcases ih as bs k h with h | h
            · exact Or.inl (by simp at h ⊢; exact Or.inr h)
            · exact Or.inr (by simp at h ⊢; exact Or.inr h)

/-- With strictly ascending inputs, the emitted keys are strictly
ascending. -/
theorem combinedF_keys_sorted (f : Nat) : ∀ (l : List α) (r : List β),
    StrictAsc kl l → StrictAsc kr r →
    (emittedKeys kl kr (combinedF kl kr f l r)).Pairwise (· < ·) := by
  induction f with
  | zero => intro l r _ _; simp [combinedF, emittedKeys]
  | succ f ih =>
    intro l r hl hr
    match l, r with
    | [], [] => simp [combinedF, emittedKeys]
    | a :: as, [] =>
      simp only [combinedF, emittedKeys, List.filterMap_cons, emitKey]
      refine List.Pairwise.cons ?_ (ih as [] hl.tail hr)
      intro k hk
      rcases combinedF_keys_sub f as [] k hk with h | h
      · simp only [List.mem_map] at h
        obtain ⟨x, hx, rfl⟩ := h
        exact List.rel_of_pairwise_cons hl hx
      · simp at h
    | [], b :: bs =>
      simp only [combinedF, emittedKeys, List.filterMap_cons, emitKey]
      refine List.Pairwise.cons ?_ (ih [] bs hl hr.tail)
      intro k hk
      rcases combinedF_keys_sub f [] bs k hk with h | h
      · simp at h
      · simp only [List.mem_map] at h
        obtain ⟨x, hx, rfl⟩ := h
        exact List.rel_of_pairwise_cons hr hx
    | a :: as, b :: bs =>
      by_cases h1 : kl a < kr b
      · simp only [combinedF, if_pos h1, emittedKeys, List.filterMap_cons, emitKey]
        refine List.Pairwise.cons ?_ (ih as (b :: bs) hl.tail hr)
        intro k hk
        rcases combinedF_keys_sub f as (b :: bs) k hk with h | h
        · simp only [List.mem_map] at h
          obtain ⟨x, hx, rfl⟩ := h
          exact List.rel_of_pairwise_cons hl hx
        · simp only [List.mem_map] at h
          obtain ⟨x, hx, rfl⟩ := h
          rcases List.mem_cons.mp hx with rfl | hx
          · exact h1
          · exact h1.trans (List.rel_of_pairwise_cons hr hx)
      · by_cases h2 : kr b < kl a
        · simp only [combinedF, if_neg h1, if_pos h2, emittedKeys,
            List.filterMap_cons, emitKey]
          refine List.Pairwise.cons ?_ (ih (a :: as) bs hl hr.tail)
          intro k hk
          rcases combinedF_keys_sub f (a :: as) bs k hk with h | h
          · simp only [List.mem_map] at h
            obtain ⟨x, hx, rfl⟩ := h
            rcases List.mem_cons.mp hx with rfl | hx
            · exact h2
            · exact h2.trans (List.rel_of_pairwise_cons hl hx)
          · simp only [List.mem_map] at h
            obtain ⟨x, hx, rfl⟩ := h
            exact List.rel_of_pairwise_cons hr hx
        · have hab : kl a = kr b := le_antisymm (not_lt.mp h2) (not_lt.mp h1)
          simp only [combinedF, if_neg h1, if_neg h2, emittedKeys,
            List.filterMap_cons, emitKey]
          refine List.Pairwise.cons ?_ (ih as bs hl.tail hr.tail)
          intro k hk
          rcases combinedF_keys_sub f as bs k hk with h | h
          · simp only [List.mem_map] at h
            obtain ⟨x, hx, rfl⟩ := h
            exact List.rel_of_pairwise_cons hl hx
          · simp only [List.mem_map] at h
            obtain ⟨x, hx, rfl⟩ := h
            exact hab ▸ List.rel_of_pairwise_cons hr hx

/-- Every emitted pair carries a key (in particular `(None, None)` is
never emitted). -/
theorem combinedF_keys_length (f : Nat) : ∀ (l : List α) (r : List β),
    (emittedKeys kl kr (combinedF kl kr f l r)).length
      = (combinedF kl kr f l r).length := by
  induction f with
  | zero => intro l r; simp [combinedF, emittedKeys]
  | succ f ih =>
    intro l r
    match l, r with
    | [], [] => simp [combinedF, emittedKeys]
    | a :: as, [] =>
      simp only [combinedF, emittedKeys, List.filterMap_cons, emitKey, List.length_cons]
      exact congrArg (· + 1) (ih as [])
    | [], b :: bs =>
      simp only [combinedF, emittedKeys, List.filterMap_cons, emitKey, List.length_cons]
      exact congrArg (· + 1) (ih [] bs)
    | a :: as, b :: bs =>
      by_cases h1 : kl a < kr b
      · simp only [combinedF, if_pos h1, emittedKeys, List.filterMap_cons, emitKey,
          List.length_cons]
        exact congrArg (· + 1) (ih as (b :: bs))
      · by_cases h2 : kr b < kl a
        · simp only [combinedF, if_neg h1, if_pos h2, emittedKeys,
            List.filterMap_cons, emitKey, List.length_cons]
          exact congrArg (· + 1) (ih (a :: as) bs)
        · simp only [combinedF, if_neg h1, if_neg h2, emittedKeys,
            List.filterMap_cons, emitKey, List.length_cons]
          exact congrArg (· + 1) (ih as bs)

/-- A left element whose key is absent from the right input is emitted
as a left-only pair. -/
theorem combinedF_left_only (f : Nat) : ∀ (l : List α) (r : List β) (a : α),
    l.length + r.length ≤ f → a ∈ l → kl a ∉ r.map kr →
    (some a, none) ∈ combinedF kl kr f l r := by
  induction f with
  | zero =>
    intro l r a hf ha _
    cases l with
    | nil => cases ha
    | cons x as => simp at hf
  | succ f ih =>
    intro l r a hf ha hnot
    match l, r with
    | [], _ => cases ha
    | x :: as, [] =>
      simp only [combinedF]
      rcases List.mem_cons.mp ha with rfl | ha
      · exact List.mem_cons_self _ _
      · exact List.mem_cons_of_mem _ (ih as [] a (by simp at hf ⊢; omega) ha (by simp))
    | x :: as, b :: bs =>
      have hlen : as.length + (b :: bs).length ≤ f := by simp at hf ⊢; omega
      by_cases h1 : kl x < kr b
      · simp only [combinedF, if_pos h1]
        rcases List.mem_cons.mp ha with rfl | ha
        · exact List.mem_cons_self _ _
        · exact List.mem_cons_of_mem _ (ih as (b :: bs) a hlen ha hnot)
      · by_cases h2 : kr b < kl x
        · simp only [combinedF, if_neg h1, if_pos h2]
          refine List.mem_cons_of_mem _ (ih (x :: as) bs a ?_ ha ?_)
          · simp at hf ⊢; omega
          · intro hmem
            exact hnot (by simp at hmem ⊢; exact Or.inr hmem)
        · have hab : kl x = kr b := le_antisymm (not_lt.mp h2) (not_lt.mp h1)
          simp only [combinedF, if_neg h1, if_neg h2]
          rcases List.mem_cons.mp ha with rfl | ha
          · exact absurd (by simp [hab]) hnot
          · refine List.mem_cons_of_mem _ (ih as bs a (by simp at hf ⊢; omega) ha ?_)
            intro hmem
            exact hnot (by simp at hmem ⊢; exact Or.inr hmem)

/-- A right element whose key is absent from the left input is emitted
as a right-only pair. -/
theorem combinedF_right_only (f : Nat) : ∀ (l : List α) (r : List β) (b : β),
    l.length + r.length ≤ f → b ∈ r → kr b ∉ l.map kl →
    (none, some b) ∈ combinedF kl kr f l r := by
  induction f with
  | zero =>
    intro l r b hf hb _
    cases r with
    | nil => cases hb
    | cons x bs => simp at hf
  | succ f ih =>
    intro l r b hf hb hnot
    match l, r with
    | _, [] => cases hb
    | [], y :: bs =>
      simp only [combinedF]
      rcases List.mem_cons.mp hb with rfl | hb
      · exact List.mem_cons_self _ _
      · exact List.mem_cons_of_mem _ (ih [] bs b (by simp at hf ⊢; omega) hb (by simp))
    | x :: as, y :: bs =>
      by_cases h1 : kl x < kr y
      · simp only [combinedF, if_pos h1]
        refine List.mem_cons_of_mem _ (ih as (y :: bs) b ?_ hb ?_)
        · simp at hf ⊢; omega
        · intro hmem
          exact hnot (by simp at hmem ⊢; exact Or.inr hmem)
      · by_cases h2 : kr y < kl x
        · simp only [combinedF, if_neg h1, if_pos h2]
          rcases List.mem_cons.mp hb with rfl | hb
          · exact List.mem_cons_self _ _
          · exact List.mem_cons_of_mem _
              (ih (x :: as) bs b (by simp at hf ⊢; omega) hb hnot)
        · have hab : kl x = kr y := le_antisymm (not_lt.mp h2) (not_lt.mp h1)
          simp only [combinedF, if_neg h1, if_neg h2]
          rcases List.mem_cons.mp hb with rfl | hb
          · exact absurd (by simp [← hab]) hnot
          · refine List.mem_cons_of_mem _ (ih as bs b (by simp at hf ⊢; omega) hb ?_)
            intro hmem
            exact hnot (by simp at hmem ⊢; exact Or.inr hmem)

/-- A key shared by both (strictly ascending) inputs is emitted as a
matched two-sided pair. -/
theorem combinedF_matched (f : Nat) : ∀ (l : List α) (r : List β) (a : α) (b : β),
    l.length + r.length ≤ f → StrictAsc kl l → StrictAsc kr r →
    a ∈ l → b ∈ r → kl a = kr b →
    (some a, some b) ∈ combinedF kl kr f l r := by
  induction f with
  | zero =>
    intro l r a b hf _ _ ha _ _
    cases l with
    | nil => cases ha
    | cons x as => simp at hf
  | succ f ih =>
    intro l r a b hf hl hr ha hb hab
    match l, r with
    | [], _ => cases ha
    | _, [] => cases hb
    | x :: as, y :: bs =>
      by_cases h1 : kl x < kr y
      · simp only [combinedF, if_pos h1]
        have ha' : a ∈ as := by
          rcases List.mem_cons.mp ha with rfl | ha'
          · exfalso
            rcases List.mem_cons.mp hb with rfl | hb'
            · exact absurd hab (ne_of_lt h1)
            · exact absurd hab (ne_of_lt (h1.trans (List.rel_of_pairwise_cons hr hb')))
          · exact ha'
        exact List.mem_cons_of_mem _
          (ih as (y :: bs) a b (by simp at hf ⊢; omega) hl.tail hr ha' hb hab)
      · by_cases h2 : kr y < kl x
        · simp only [combinedF, if_neg h1, if_pos h2]
          have hb' : b ∈ bs := by
            rcases List.mem_cons.mp hb with rfl | hb'
            · exfalso
              rcases List.mem_cons.mp ha with rfl | ha'
              · exact absurd hab.symm (ne_of_lt h2)
              · exact absurd hab.symm
                  (ne_of_lt (h2.trans (List.rel_of_pairwise_cons hl ha')))
            · exact hb'
          exact List.mem_cons_of_mem _
            (ih (x :: as) bs a b (by simp at hf ⊢; omega) hl hr.tail ha hb' hab)
        · have hxy : kl x = kr y := le_antisymm (not_lt.mp h2) (not_lt.mp h1)
          simp only [combinedF, if_neg h1, if_neg h2]
          rcases List.mem_cons.mp ha with rfl | ha'
          · rcases List.mem_cons.mp hb with rfl | hb'
            · exact List.mem_cons_self _ _
            · exact absurd (hab.symm.trans hxy)
                (ne_of_gt (List.rel_of_pairwise_cons hr hb'))
          · rcases List.mem_cons.mp hb with rfl | hb'
            · exact absurd (hab.trans hxy.symm)
                (ne_of_gt (List.rel_of_pairwise_cons hl ha'))
            · exact List.mem_cons_of_mem _
                (ih as bs a b (by simp at hf ⊢; omega) hl.tail hr.tail ha' hb' hab)

/-- Inversion: with strictly ascending inputs, a left-only pair's key is
absent from the right input, a right-only pair's key is absent from the
left input, a two-sided pair matches an element of each input with equal
keys, and `(None, None)` is never emitted. -/
theorem combinedF_forms (f : Nat) : ∀ (l : List α) (r : List β),
    StrictAsc kl l → StrictAsc kr r →
    ∀ p ∈ combinedF kl kr f l r,
      (∀ a, p = (some a, none) → a ∈ l ∧ kl a ∉ r.map kr) ∧
      (∀ b, p = (none, some b) → b ∈ r ∧ kr b ∉ l.map kl) ∧
      (∀ a b, p = (some a, some b) → a ∈ l ∧ b ∈ r ∧ kl a = kr b) ∧
      p ≠ (none, none) := by
  induction f with
  | zero => intro l r _ _ p hp; simp [combinedF] at hp
  | succ f ih =>
    intro l r hl hr p hp
    match l, r with
    | [], [] => simp [combinedF] at hp
    | x :: as, [] =>
      simp only [combinedF] at hp
      rcases List.mem_cons.mp hp with rfl | hp
      · refine ⟨?_, ?_, ?_, ?_⟩
        · rintro a ⟨rfl, rfl⟩
          exact ⟨List.mem_cons_self _ _, by simp⟩
        · rintro b ⟨h, -⟩
        · rintro a b ⟨-, h⟩
        · rintro ⟨h, -⟩
      · obtain ⟨h1, h2, h3, h4⟩ := ih as [] hl.tail hr p hp
        refine ⟨fun a ha => ?_, fun b hb => ?_, fun a b hab => ?_, h4⟩
        · obtain ⟨hmem, hnot⟩ := h1 a ha
          exact ⟨List.mem_cons_of_mem _ hmem, hnot⟩
        · obtain ⟨hmem, -⟩ := h2 b hb; cases hmem
        · obtain ⟨-, hmem, -⟩ := h3 a b hab; cases hmem
    | [], y :: bs =>
      simp only [combinedF] at hp
      rcases List.mem_cons.mp hp with rfl | hp
      · refine ⟨?_, ?_, ?_, ?_⟩
        · rintro a ⟨h, -⟩
        · rintro b ⟨-, rfl⟩
          exact ⟨by simp_all, by simp⟩
        · rintro a b ⟨h, -⟩
        · rintro ⟨-, h⟩
      · obtain ⟨h1, h2, h3, h4⟩ := ih [] bs hl hr.tail p hp
        refine ⟨fun a ha => ?_, fun b hb => ?_, fun a b hab => ?_, h4⟩
        · obtain ⟨hmem, -⟩ := h1 a ha; cases hmem
        · obtain ⟨hmem, hnot⟩ := h2 b hb
          exact ⟨List.mem_cons_of_mem _ hmem, hnot⟩
        · obtain ⟨hmem, -⟩ := h3 a b hab; cases hmem
    | x :: as, y :: bs =>
      by_cases h1 : kl x < kr y
      · simp only [combinedF, if_pos h1] at hp
        rcases List.mem_cons.mp hp with rfl | hp
        · refine ⟨?_, ?_, ?_, ?_⟩
          · rintro a ⟨rfl, rfl⟩
            refine ⟨List.mem_cons_self _ _, ?_⟩
            intro hmem
            simp only [List.mem_map] at hmem
            obtain ⟨b, hb, hkey⟩ := hmem
            rcases List.mem_cons.mp hb with rfl | hb
            · exact absurd hkey.symm (ne_of_lt h1)
            · exact absurd hkey.symm
                (ne_of_lt (h1.trans (List.rel_of_pairwise_cons hr hb)))
          · rintro b ⟨h, -⟩
          · rintro a b ⟨-, h⟩
          · rintro ⟨h, -⟩
        · obtain ⟨g1, g2, g3, g4⟩ := ih as (y :: bs) hl.tail hr p hp
          refine ⟨fun a ha => ?_, fun b hb => ?_, fun a b hab => ?_, g4⟩
          · obtain ⟨hmem, hnot⟩ := g1 a ha
            exact ⟨List.mem_cons_of_mem _ hmem, hnot⟩
          · obtain ⟨hmem, hnot⟩ := g2 b hb
            refine ⟨hmem, ?_⟩
            intro hmem'
            simp only [List.map_cons, List.mem_cons] at hmem'
            rcases hmem' with hkey | hmem'
            · rcases List.mem_cons.mp hmem with rfl | hb'
              · exact absurd hkey (ne_of_gt h1)
              · exact absurd hkey
                  (ne_of_gt (h1.trans (List.rel_of_pairwise_cons hr hb')))
            · exact hnot hmem'
          · obtain ⟨hmem, hmem', hkey⟩ := g3 a b hab
            exact ⟨List.mem_cons_of_mem _ hmem, hmem', hkey⟩
      · by_cases h2 : kr y < kl x
        · simp only [combinedF, if_neg h1, if_pos h2] at hp
          rcases List.mem_cons.mp hp with rfl | hp
          · refine ⟨?_, ?_, ?_, ?_⟩
            · rintro a ⟨h, -⟩
            · rintro b ⟨-, rfl⟩
              refine ⟨List.mem_cons_self _ _, ?_⟩
              intro hmem
              simp only [List.mem_map] at hmem
              obtain ⟨a, ha, hkey⟩ := hmem
              rcases List.mem_cons.mp ha with rfl | ha
              · exact absurd hkey.symm (ne_of_lt h2)
              · exact absurd hkey.symm
                  (ne_of_lt (h2.trans (List.rel_of_pairwise_cons hl ha)))
            · rintro a b ⟨h, -⟩
            · rintro ⟨-, h⟩
          · obtain ⟨g1, g2, g3, g4⟩ := ih (x :: as) bs hl hr.tail p hp
            refine ⟨fun a ha => ?_, fun b hb => ?_, fun a b hab => ?_, g4⟩
            · obtain ⟨hmem, hnot⟩ := g1 a ha
              refine ⟨hmem, ?_⟩
              intro hmem'
              simp only [List.map_cons, List.mem_cons] at hmem'
              rcases hmem' with hkey | hmem'
              · rcases List.mem_cons.mp hmem with rfl | ha'
                · exact absurd hkey (ne_of_gt h2)
                · exact absurd hkey
                    (ne_of_gt (h2.trans (List.rel_of_pairwise_cons hl ha')))
              · exact hnot hmem'
            · obtain ⟨hmem, hnot⟩ := g2 b hb
              exact ⟨List.mem_cons_of_mem _ hmem, hnot⟩
            · obtain ⟨hmem, hmem', hkey⟩ := g3 a b hab
              exact ⟨hmem, List.mem_cons_of_mem _ hmem', hkey⟩
        · have hxy : kl x = kr y := le_antisymm (not_lt.mp h2) (not_lt.mp h1)
          simp only [combinedF, if_neg h1, if_neg h2] at hp
          rcases List.mem_cons.mp hp with rfl | hp
          · refine ⟨?_, ?_, ?_, ?_⟩
            · rintro a ⟨-, h⟩
            · rintro b ⟨h, -⟩
            · rintro a b ⟨rfl, rfl⟩
              exact ⟨List.mem_cons_self _ _, List.mem_cons_self _ _, hxy⟩
            · rintro ⟨h, -⟩
          · obtain ⟨g1, g2, g3, g4⟩ := ih as bs hl.tail hr.tail p hp
            refine ⟨fun a ha => ?_, fun b hb => ?_, fun a b hab => ?_, g4⟩
            · obtain ⟨hmem, hnot⟩ := g1 a ha
              refine ⟨List.mem_cons_of_mem _ hmem, ?_⟩
              intro hmem'
              simp only [List.map_cons, List.mem_cons] at hmem'
              rcases hmem' with hkey | hmem'
              · exact absurd (hkey.trans hxy.symm)
                  (ne_of_gt (List.rel_of_pairwise_cons hl hmem))
              · exact hnot hmem'
            · obtain ⟨hmem, hnot⟩ := g2 b hb
              refine ⟨List.mem_cons_of_mem _ hmem, ?_⟩
              intro hmem'
              simp only [List.map_cons, List.mem_cons] at hmem'
              rcases hmem' with hkey | hmem'
              · exact absurd (hkey.trans hxy)
                  (ne_of_gt (List.rel_of_pairwise_cons hr hmem))
              · exact hnot hmem'
            · obtain ⟨hmem, hmem', hkey⟩ := g3 a b hab
              exact ⟨List.mem_cons_of_mem _ hmem, List.mem_cons_of_mem _ hmem', hkey⟩

/-- With key-disjoint inputs, every input element gives rise to exactly
one emission. -/
theorem combinedF_disjoint_length (f : Nat) : ∀ (l : List α) (r : List β),
    l.length + r.length ≤ f →
    (∀ k, k ∈ l.map kl → k ∉ r.map kr) →
    (combinedF kl kr f l r).length = l.length + r.length := by
  induction f with
  | zero =>
    intro l r hf _
    match l, r with
    | [], [] => simp [combinedF]
    | x :: as, _ => simp at hf
    | [], y :: bs => simp at hf
  | succ f ih =>
    intro l r hf hdisj
    match l, r with
    | [], [] => simp [combinedF]
    | x :: as, [] =>
      simp only [combinedF, List.length_cons]
      rw [ih as [] (by simp at hf ⊢; omega) (by simp)]
      simp
    | [], y :: bs =>
      simp only [combinedF, List.length_cons]
      rw [ih [] bs (by simp at hf ⊢; omega) (by simp)]
      simp
    | x :: as, y :: bs =>
      by_cases h1 : kl x < kr y
      · simp only [combinedF, if_pos h1, List.length_cons]
        rw [ih as (y :: bs) (by simp at hf ⊢; omega)
          (fun k hk => hdisj k (by simp at hk ⊢; exact Or.inr hk))]
        simp; omega
      · by_cases h2 : kr y < kl x
        · simp only [combinedF, if_neg h1, if_pos h2, List.length_cons]
          rw [ih (x :: as) bs (by simp at hf ⊢; omega)
            (fun k hk => fun hk' => hdisj k hk (by simp at hk' ⊢; exact Or.inr hk'))]
          simp; omega
        · have hxy : kl x = kr y := le_antisymm (not_lt.mp h2) (not_lt.mp h1)
          exact absurd (by simp [hxy]) (hdisj (kl x) (by simp))

/-- With the right input empty, every left element is emitted left-only,
in order. -/
theorem combinedF_nil_right (f : Nat) : ∀ l : List α, l.length ≤ f →
    combinedF kl kr f l ([] : List β) = l.map (fun a => (some a, none)) := by
  induction f with
  | zero =>
    intro l hf
    match l with
    | [] => simp [combinedF]
    | x :: as => simp at hf
  | succ f ih =>
    intro l hf
    match l with
    | [] => simp [combinedF]
    | x :: as =>
      simp only [combinedF, List.map_cons]
      rw [ih as (by simp at hf ⊢; omega)]

/-- With the left input empty, every right element is emitted
right-only, in order. -/
theorem combinedF_nil_left (f : Nat) : ∀ r : List β, r.length ≤ f →
    combinedF kl kr f ([] : List α) r = r.map (fun b => (none, some b)) := by
  induction f with
  | zero =>
    intro r hf
    match r with
    | [] => simp [combinedF]
    | y :: bs => simp at hf
  | succ f ih =>
    intro r hf
    match r with
    | [] => simp [combinedF]
    | y :: bs =>
      simp only [combinedF, List.map_cons]
      rw [ih bs (by simp at hf ⊢; omega)]

end CombinedLemmas

/-- C1: for strictly ascending inputs with comparable keys, the
merge-differ (`CombinedIterator`) emits a one-sided pair for each key
present in only one input and a two-sided pair for each shared key, and
terminates when both inputs are exhausted; empty inputs and asymmetric
exhaustion are handled (the remaining input continues as unpaired
emissions); the emitted keys are strictly ascending, every pair carries
a key, and for key-disjoint inputs exactly `|L| + |R|` pairs are
emitted, so each key appears exactly once, in ascending order. -/
theorem claim_C1_combined_iterator {α β κ : Type} [LinearOrder κ]
    (kl : α → κ) (kr : β → κ) (l : List α) (r : List β)
    (hl : StrictAsc kl l) (hr : StrictAsc kr r) :
    combinedIterator kl kr ([] : List α) ([] : List β) = [] ∧
    combinedIterator kl kr l ([] : List β) = l.map (fun a => (some a, none)) ∧
    combinedIterator kl kr ([] : List α) r = r.map (fun b => (none, some b)) ∧
    (∀ a ∈ l, kl a ∉ r.map kr → (some a, none) ∈ combinedIterator kl kr l r) ∧
    (∀ b ∈ r, kr b ∉ l.map kl → (none, some b) ∈ combinedIterator kl kr l r) ∧
    (∀ a ∈ l, ∀ b ∈ r, kl a = kr b →
      (some a, some b) ∈ combinedIterator kl kr l r) ∧
    (∀ p ∈ combinedIterator kl kr l r,
      (∀ a, p = (some a, none) → a ∈ l ∧ kl a ∉ r.map kr) ∧
      (∀ b, p = (none, some b) → b ∈ r ∧ kr b ∉ l.map kl) ∧
      (∀ a b, p = (some a, some b) → a ∈ l ∧ b ∈ r ∧ kl a = kr b) ∧
      p ≠ (none, none)) ∧
    (emittedKeys kl kr (combinedIterator kl kr l r)).Pairwise (· < ·) ∧
    (emittedKeys kl kr (combinedIterator kl kr l r)).length
      = (combinedIterator kl kr l r).length ∧
    ((∀ k, k ∈ l.map kl → k ∉ r.map kr) →
      (combinedIterator kl kr l r).length = l.length + r.length) := by
  refine ⟨rfl, ?_, ?_, ?_, ?_, ?_, ?_, ?_, ?_, ?_⟩
  · exact combinedF_nil_right _ _ (by simp)
  · exact combinedF_nil_left _ _ (by simp)
  · exact fun a ha hnot => combinedF_left_only _ _ _ a le_rfl ha hnot
  · exact fun b hb hnot => combinedF_right_only _ _ _ b le_rfl hb hnot
  · exact fun a ha b hb hab => combinedF_matched _ _ _ a b le_rfl hl hr ha hb hab
  · exact combinedF_forms _ _ _ hl hr
  · exact combinedF_keys_sorted _ _ _ hl hr
  · exact combinedF_keys_length _ _ _
  · exact fun hdisj => combinedF_disjoint_length _ _ _ le_rfl hdisj

/-- Witness for C1 at a concrete input: local keys `[1, 3, 4]`, remote
keys `[2, 3]` (shared key `3`). -/
theorem claim_C1_combined_iterator_witness :
    (StrictAsc (fun n : Nat => n) [1, 3, 4] ∧ StrictAsc (fun n : Nat => n) [2, 3]) ∧
    ((∀ a ∈ [1, 3, 4], (fun n : Nat => n) a ∉ [2, 3].map (fun n : Nat => n) →
        (some a, none) ∈ combinedIterator (fun n : Nat => n) (fun n : Nat => n)
          [1, 3, 4] [2, 3]) ∧
      (∀ a ∈ [1, 3, 4], ∀ b ∈ [2, 3], (fun n : Nat => n) a = (fun n : Nat => n) b →
        (some a, some b) ∈ combinedIterator (fun n : Nat => n) (fun n : Nat => n)
          [1, 3, 4] [2, 3]) ∧
      (emittedKeys (fun n : Nat => n) (fun n : Nat => n)
        (combinedIterator (fun n : Nat => n) (fun n : Nat => n)
          [1, 3, 4] [2, 3])).Pairwise (· < ·)) := by
  have hl : StrictAsc (fun n : Nat => n) [1, 3, 4] := by unfold StrictAsc; decide
  have hr : StrictAsc (fun n : Nat => n) [2, 3] := by unfold StrictAsc; decide
  have h := claim_C1_combined_iterator (fun n : Nat => n) (fun n : Nat => n)
    [1, 3, 4] [2, 3] hl hr
  exact ⟨⟨hl, hr⟩, h.2.2.2.1, h.2.2.2.2.2.1, h.2.2.2.2.2.2.2.1⟩

/-! ## Volume sync engine (crunchyclient/storage.py)

`update_volume` drives the tree walker, the remote catalog reader and
the merge-differ, classifies each emitted pair, accumulates a path-keyed
batch and submits it through `_handle_file_batch`.

A local file as seen by the engine: `relpath` is
`str(local.relative_to(root))` (the walker yields absolute paths under
the volume root; we carry the relative path directly).  `readable`
models whether opening/hashing the file raises `PermissionError`;
`sha256` is the (base64-encoded) content digest that `_get_file_sha256`
would compute when the file is readable. -/

/-- A local file together with its stat data. -/
structure LocalFile where
  relpath : List Char
  size : Nat
  mtime : Int
  readable : Bool
  sha256 : List Char
deriving DecidableEq

/-- A remote file record as returned by the catalog API
(`{'path': ..., 'size': ..., 'mtime': ...}`; the digest field is not
consulted by `_update_file_status`). -/
structure ApiFile where
  path : List Char
  size : Nat
  mtime : Int
deriving DecidableEq

/-- The fingerprint record built by `_process_file`. -/
structure FileInfo where
  mtime : Int
  size : Nat
  lastverify : Int
  sha256 : List Char
deriving DecidableEq

/-- `StorageProcessor._process_file` (storage.py 233-244): fingerprint a
local file; on a `PermissionError` print a message and return `None`. -/
def process_file (now : Int) (f : LocalFile) : Option FileInfo :=
  if f.readable then some ⟨f.mtime, f.size, now, f.sha256⟩ else none

/-- The classification decision reported (printed) for a pair. -/
inductive FileStatus
  | deleted
  | new
  | changed
  | unchanged
deriving DecidableEq

/-- A batch value: the fingerprint record of a new/changed file, or the
unchanged remote record returned in the no-op branch (never batched by
`update_volume`); Python's `None` (the deletion tombstone) is the
surrounding `Option`'s `none`. -/
inductive StatusValue
  | info (fi : FileInfo)
  | remote (r : ApiFile)
deriving DecidableEq

/-- `StorageProcessor._update_file_status` (storage.py 210-224), paired
with the classification it prints.  Branches mirror the source:
* `local is None` → DELETED, entry `remote['path'] → None`;
* `remote is None`, or the sizes differ, or the mtimes differ → NEW
  resp. CHANGED, entry `relpath → _process_file(local)`;
* otherwise UNCHANGED, no key (`k = None`), value the remote record.
The `(None, None)` input never reaches this function (the merge-differ
never emits it; the source would raise there), so it is given the
DELETED branch's shape with no key. -/
def update_file_status (now : Int) (loc : Option LocalFile)
    (remote : Option ApiFile) :
    FileStatus × Option (List Char) × Option StatusValue :=
  match loc, remote with
  | none, some r => (.deleted, some r.path, none)
  | none, none => (.deleted, none, none)
  | some l, none => (.new, some l.relpath, (process_file now l).map .info)
  | some l, some r =>
    if l.size ≠ r.size ∨ l.mtime ≠ r.mtime then
      (.changed, some l.relpath, (process_file now l).map .info)
    else
      (.unchanged, none, some (.remote r))

/-- A path-keyed batch, with Python-dict insertion order. -/
abbrev Batch := List (List Char × Option StatusValue)

/-- `batch[k] = v` on a Python dict: an existing key keeps its position
and receives the new value, a fresh key is appended. -/
def dictSet : Batch → List Char → Option StatusValue → Batch
  | [], k, v => [(k, v)]
  | (k', v') :: rest, k, v =>
    if k' = k then (k, v) :: rest else (k', v') :: dictSet rest k v

/-- `StorageProcessor._handle_file_batch` (storage.py 202-208): if the
batch has reached the threshold, submit it and clear it; otherwise
return it unchanged.  The first component records the submission, if
any. -/
def handle_file_batch (batch : Batch) (treshold : Nat) :
    Option Batch × Batch :=
  if treshold ≤ batch.length then (some batch, []) else (none, batch)

/-- State of a running `update_volume`: the accumulating batch and the
batches submitted so far, in submission order. -/
structure SyncRun where
  batch : Batch
  submitted : List Batch
deriving DecidableEq

/-- One iteration of the `for local, remote in ci:` loop of
`update_volume` (storage.py 195-199): classify the pair, add the entry
to the batch when a key was returned (Python's `if k:` also skips an
empty key string), then flush through `_handle_file_batch` with
threshold 10. -/
def update_volume_step (now : Int) (st : SyncRun)
    (pr : Option LocalFile × Option ApiFile) : SyncRun :=
  let kv := update_file_status now pr.1 pr.2
  let batch1 := match kv.2.1 with
    | some (c :: cs) => dictSet st.batch (c :: cs) kv.2.2
    | _ => st.batch
  match handle_file_batch batch1 10 with
  | (some b, batch2) => ⟨batch2, st.submitted ++ [b]⟩
  | (none, batch2) => ⟨batch2, st.submitted⟩

/-- The pair stream consumed by `update_volume`: the merge-differ over
the walker's files (keyed by relative path) and the catalog records
(keyed by `path`). -/
def update_volume_pairs (locals : List LocalFile) (remotes : List ApiFile) :
    List (Option LocalFile × Option ApiFile) :=
  combinedIterator (fun f => f.relpath) (fun r => r.path) locals remotes

/-- `StorageProcessor.update_volume` (storage.py 186-200): run the diff
loop, then flush the remainder through `_handle_file_batch` with
threshold 1 (submit iff non-empty). -/
def update_volume (now : Int) (locals : List LocalFile)
    (remotes : List ApiFile) : SyncRun :=
  let st := (update_volume_pairs locals remotes).foldl
    (update_volume_step now) ⟨[], []⟩
  match handle_file_batch st.batch 1 with
  | (some b, batch2) => ⟨batch2, st.submitted ++ [b]⟩
  | (none, batch2) => ⟨batch2, st.submitted⟩

/-- Setting a key grows a batch by at most one entry. -/
theorem dictSet_length_le (batch : Batch) (k : List Char)
    (v : Option StatusValue) : (dictSet batch k v).length ≤ batch.length + 1 := by
  induction batch with
  | nil => simp [dictSet]
  | cons kv rest ih =>
    obtain ⟨k', v'⟩ := kv
    by_cases h : k' = k
    · simp [dictSet, h]
    · simp only [dictSet, if_neg h, List.length_cons]
      omega

/-- One diff-loop iteration preserves the batching invariant: the
accumulating batch stays under the threshold and every submitted batch
has size at most the threshold. -/
theorem update_volume_step_inv (now : Int) (st : SyncRun)
    (pr : Option LocalFile × Option ApiFile)
    (h9 : st.batch.length ≤ 9) (hsub : ∀ b ∈ st.submitted, b.length ≤ 10) :
    (update_volume_step now st pr).batch.length ≤ 9 ∧
      ∀ b ∈ (update_volume_step now st pr).submitted, b.length ≤ 10 := by
  have hnth : ¬ 10 ≤ st.batch.length := by omega
  rcases hk : (update_file_status now pr.1 pr.2).2.1 with _ | (_ | ⟨c, cs⟩)
  · simp only [update_volume_step, hk, handle_file_batch, if_neg hnth]
    exact ⟨h9, hsub⟩
  · simp only [update_volume_step, hk, handle_file_batch, if_neg hnth]
    exact ⟨h9, hsub⟩
  · have hlen : (dictSet st.batch (c :: cs)
        (update_file_status now pr.1 pr.2).2.2).length ≤ st.batch.length + 1 :=
      dictSet_length_le _ _ _
    by_cases hth : 10 ≤ (dictSet st.batch (c :: cs)
        (update_file_status now pr.1 pr.2).2.2).length
    · simp only [update_volume_step, hk, handle_file_batch, if_pos hth]
      refine ⟨by simp, ?_⟩
      intro b hb
      simp only [List.mem_append, List.mem_singleton] at hb
      rcases hb with hb | rfl
      · exact hsub b hb
      · omega
    · simp only [update_volume_step, hk, handle_file_batch, if_neg hth]
      exact ⟨by omega, hsub⟩

/-- The diff-loop fold preserves the batching invariant. -/
theorem update_volume_fold_inv (now : Int) :
    ∀ (pairs : List (Option LocalFile × Option ApiFile)) (st : SyncRun),
      st.batch.length ≤ 9 → (∀ b ∈ st.submitted, b.length ≤ 10) →
      (pairs.foldl (update_volume_step now) st).batch.length ≤ 9 ∧
        ∀ b ∈ (pairs.foldl (update_volume_step now) st).submitted,
          b.length ≤ 10 := by
  intro pairs
  induction pairs with
  | nil => intro st h9 hsub; exact ⟨h9, hsub⟩
  | cons p rest ih =>
    intro st h9 hsub
    obtain ⟨h9', hsub'⟩ := update_volume_step_inv now st p h9 hsub
    exact ih _ h9' hsub'

/-- C5: every batch submitted during the diff loop of `update_volume`
has size at most the threshold (10) at the moment it is flushed, and
after the merge-differ is exhausted the remaining batch is submitted
unconditionally when non-empty and not submitted when empty. -/
theorem claim_C5_batching (now : Int) (locals : List LocalFile)
    (remotes : List ApiFile) :
    (∀ b ∈ ((update_volume_pairs locals remotes).foldl
        (update_volume_step now) ⟨[], []⟩).submitted, b.length ≤ 10) ∧
    (update_volume now locals remotes).submitted =
      (let st := (update_volume_pairs locals remotes).foldl
        (update_volume_step now) ⟨[], []⟩
      if st.batch = [] then st.submitted else st.submitted ++ [st.batch]) := by
  obtain ⟨h9, hsub⟩ := update_volume_fold_inv now
    (update_volume_pairs locals remotes) ⟨[], []⟩ (by simp) (by simp)
  refine ⟨hsub, ?_⟩
  unfold update_volume
  set st := (update_volume_pairs locals remotes).foldl
    (update_volume_step now) ⟨[], []⟩ with hst
  rcases hbatch : st.batch with _ | ⟨kv, rest⟩
  · simp [handle_file_batch, hbatch]
  · simp [handle_file_batch, hbatch]

/-- Unchanged pairs contribute nothing: if every emitted pair is a
matched pair with equal size and mtime, the diff-loop fold leaves the
initial empty state untouched. -/
theorem update_volume_fold_unchanged (now : Int) :
    ∀ (pairs : List (Option LocalFile × Option ApiFile)),
      (∀ p ∈ pairs, ∃ lf rf, p = (some lf, some rf) ∧
        lf.size = rf.size ∧ lf.mtime = rf.mtime) →
      pairs.foldl (update_volume_step now) ⟨[], []⟩ = (⟨[], []⟩ : SyncRun) := by
  intro pairs
  induction pairs with
  | nil => intro _; rfl
  | cons p rest ih =>
    intro hall
    obtain ⟨lf, rf, rfl, hsz, hmt⟩ := hall p (List.mem_cons_self _ _)
    have hstep : update_volume_step now ⟨[], []⟩ (some lf, some rf)
        = (⟨[], []⟩ : SyncRun) := by
      unfold update_volume_step
      simp [update_file_status, hsz, hmt, handle_file_batch]
    rw [List.foldl_cons, hstep]
    exact ih (fun q hq => hall q (List.mem_cons_of_mem _ hq))

/-- C2: classification of each merge-differ pair by
`_update_file_status`: missing local → DELETED with a tombstone entry
keyed by the remote path; missing remote → NEW, fingerprint and entry
`relpath → record`; both present with differing size or mtime →
CHANGED, re-fingerprint and entry `relpath → record`; both present with
equal size and mtime → UNCHANGED with no entry — hence a sync whose
pairs are all matched and unchanged submits nothing and ends with an
empty batch. -/
theorem claim_C2_classification (now : Int) (l : LocalFile) (r : ApiFile)
    (locals : List LocalFile) (remotes : List ApiFile)
    (hread : l.readable = true) :
    (∀ r' : ApiFile, update_file_status now none (some r')
      = (.deleted, some r'.path, none)) ∧
    update_file_status now (some l) none
      = (.new, some l.relpath, some (.info ⟨l.mtime, l.size, now, l.sha256⟩)) ∧
    (l.size ≠ r.size ∨ l.mtime ≠ r.mtime →
      update_file_status now (some l) (some r)
        = (.changed, some l.relpath,
            some (.info ⟨l.mtime, l.size, now, l.sha256⟩))) ∧
    (l.size = r.size → l.mtime = r.mtime →
      update_file_status now (some l) (some r)
        = (.unchanged, none, some (.remote r))) ∧
    ((∀ p ∈ update_volume_pairs locals remotes, ∃ lf rf,
        p = (some lf, some rf) ∧ lf.size = rf.size ∧ lf.mtime = rf.mtime) →
      (update_volume now locals remotes).submitted = [] ∧
        (update_volume now locals remotes).batch = []) := by
  refine ⟨fun r' => rfl, ?_, ?_, ?_, ?_⟩
  · simp [update_file_status, process_file, hread]
  · intro hdiff
    simp [update_file_status, process_file, hread, hdiff]
  · intro hsz hmt
    simp [update_file_status, hsz, hmt]
  · intro hall
    have h := update_volume_fold_unchanged now (update_volume_pairs locals remotes) hall
    unfold update_volume
    rw [h]
    simp [handle_file_batch]

/-- Witness for C2 at a concrete input: a readable local file `a`, a
remote record of different size (CHANGED), and an empty volume for the
idempotence part. -/
theorem claim_C2_classification_witness :
    (⟨['a'], 1, 5, true, ['h']⟩ : LocalFile).readable = true ∧
    update_file_status 0 (some ⟨['a'], 1, 5, true, ['h']⟩)
        (some ⟨['a'], 2, 5⟩)
      = (.changed, some ['a'], some (.info ⟨5, 1, 0, ['h']⟩)) ∧
    update_file_status 0 (some ⟨['a'], 1, 5, true, ['h']⟩)
        (some ⟨['a'], 1, 5⟩)
      = (.unchanged, none, some (.remote ⟨['a'], 1, 5⟩)) ∧
    (update_volume 0 [] []).submitted = [] := by
  have h := claim_C2_classification 0 ⟨['a'], 1, 5, true, ['h']⟩ ⟨['a'], 2, 5⟩
    [] [] (by decide)
  refine ⟨by decide, ?_, ?_, ?_⟩
  · exact h.2.2.1 (by decide)
  · exact (claim_C2_classification 0 ⟨['a'], 1, 5, true, ['h']⟩ ⟨['a'], 1, 5⟩
      [] [] (by decide)).2.2.2.1 rfl rfl
  · exact (h.2.2.2.2 (by intro p hp; cases hp)).1

/-- C4 behaviour at the failing input: a local file that raises
`PermissionError` during fingerprinting while being classified NEW (no
remote record).  The source logs and keeps walking, but
`_update_file_status` still returns `(relpath, None)` — the same shape
as a DELETED tombstone — and `update_volume` submits that entry to the
remote catalog; the walk does continue to the next file.  This
contradicts the claim (and the spec) that no batch entry is submitted
for such a file. -/
theorem claim_C4_permission_error_behavior :
    update_file_status 0 (some ⟨['a'], 100, 5, false, []⟩) none
      = (.new, some ['a'], none) ∧
    (update_volume 0 [⟨['a'], 100, 5, false, []⟩] []).submitted
      = [[(['a'], none)]] ∧
    (update_volume 0 [⟨['a'], 100, 5, false, []⟩,
        ⟨['b'], 7, 6, true, ['h']⟩] []).submitted
      = [[(['a'], none), (['b'], some (.info ⟨6, 7, 0, ['h']⟩))]] := by
  refine ⟨rfl, ?_, ?_⟩ <;> decide

/-! ## Sorted tree walker: `TreeFileIterator` (crunchyclient/utility.py 45-84)

The iterator keeps a stack of paths; `__next__` pops entries, skipping
symlinks and excluded paths, expanding a directory by pushing its
children sorted by `sortkey` in reverse (so they pop in ascending
order), and returning the first regular file found.  We model the
directory tree as a node (files, directories with children, symlinks),
paths as byte strings (`bytes(entry)`), and the iterator as a
fuel-indexed function over the explicit stack of `(path, node)` pairs.
A directory node's total size is an exact fuel bound. -/

/-- Byte-string strict lexicographic order (Python `bytes` `<`). -/
def bytesLt : List Nat → List Nat → Bool
  | [], [] => false
  | [], _ :: _ => true
  | _ :: _, [] => false
  | a :: as, b :: bs =>
    if a < b then true else if b < a then false else bytesLt as bs

/-- Byte-string lexicographic order, non-strict. -/
def bytesLe : List Nat → List Nat → Bool
  | [], _ => true
  | _ :: _, [] => false
  | a :: as, b :: bs =>
    if a < b then true else if b < a then false else bytesLe as bs

/-- The byte of the path separator, `/`. -/
def sepByte : Nat := 47

mutual
/-- A directory-tree node: a regular file, a directory with children,
or a symlink (which the walker neither descends into nor yields).  The
child list is a specialised list type so that all functions are plainly
structurally recursive. -/
inductive FSNode
  | file (nm : List Nat)
  | dir (nm : List Nat) (children : FSList)
  | symlink (nm : List Nat)
/-- A list of directory-tree nodes. -/
inductive FSList
  | nil
  | cons (hd : FSNode) (tl : FSList)
end

/-- The child list as an ordinary Lean list. -/
def FSList.toList : FSList → List FSNode
  | .nil => []
  | .cons c cs => c :: cs.toList

/-- A node's own name (the final path component). -/
def FSNode.name : FSNode → List Nat
  | .file nm => nm
  | .dir nm _ => nm
  | .symlink nm => nm

/-- `Path.is_symlink()`. -/
def FSNode.isSymlink : FSNode → Bool
  | .symlink _ => true
  | _ => false

mutual
/-- Number of nodes in a subtree (used as the walker's fuel bound). -/
def nodeSize : FSNode → Nat
  | .file _ => 1
  | .symlink _ => 1
  | .dir _ cs => 1 + listSize cs
/-- Total number of nodes in a list of subtrees. -/
def listSize : FSList → Nat
  | .nil => 0
  | .cons c cs => nodeSize c + listSize cs
end

/-- A stack entry: the entry's full byte path and its node. -/
abbrev DirItem := List Nat × FSNode

/-- `TreeFileIterator.sortkey` (utility.py 55-60): a directory's key is
its path with a separator appended (`bytes(entry) + b'/'`), any other
entry's key is its path. -/
def sortkey : DirItem → List Nat
  | (p, .dir _ _) => p ++ [sepByte]
  | (p, _) => p

/-- Full path of a child of the directory at path `p`
(`bytes(p) + b'/' + name`). -/
def childPath (p nm : List Nat) : List Nat := p ++ sepByte :: nm

/-- Sort order on stack entries used for a directory's children. -/
def itemLe (a b : DirItem) : Prop := bytesLe (sortkey a) (sortkey b) = true

instance : DecidableRel itemLe := fun a b => by
  unfold itemLe; infer_instance

/-- `sorted(p.iterdir(), key=self.sortkey)`: the children of the
directory at path `p`, as stack entries in ascending `sortkey` order.
(Python's `sorted` is a stable comparison sort; any correct stable sort
yields the same list, here an insertion sort.) -/
def expandDir (p : List Nat) (cs : List FSNode) : List DirItem :=
  List.insertionSort itemLe (cs.map (fun c => (childPath p c.name, c)))

/-- Total node count of a stack. -/
def stackSize (s : List DirItem) : Nat := (s.map (fun it => nodeSize it.2)).sum

/-- Fuel-indexed embedding of `TreeFileIterator.__next__` iterated to
exhaustion (utility.py 69-84): pop an entry; a symlink or an excluded
path is skipped; a directory is replaced by its children in ascending
`sortkey` order (the source pushes them reverse-sorted and pops); any
other entry is a regular file and is yielded.  `ex` is the exclusion
predicate `_is_excluded` (glob matching is abstract). -/
def walkF (ex : List Nat → Bool) : Nat → List DirItem → List (List Nat)
  | 0, _ => []
  | _ + 1, [] => []
  | f + 1, (p, n) :: rest =>
    if n.isSymlink || ex p then walkF ex f rest
    else
      match n with
      | .dir _ cs => walkF ex f (expandDir p cs.toList ++ rest)
      | _ => p :: walkF ex f rest

/-- `TreeFileIterator(root)` run to exhaustion: the stack starts as
`[root]`. -/
def treeFileIterator (ex : List Nat → Bool) (root : List Nat)
    (t : FSNode) : List (List Nat) :=
  walkF ex (nodeSize t) [(root, t)]

/-- `x` is the full path of a regular file in the tree `n` rooted at
path `p`, reachable through directories only (never through a
symlink). -/
inductive IsFilePath : List Nat → FSNode → List Nat → Prop
  | file (p nm : List Nat) : IsFilePath p (.file nm) p
  | dir (p nm : List Nat) (cs : FSList) (c : FSNode) (x : List Nat) :
      c ∈ cs.toList → IsFilePath (childPath p c.name) c x →
      IsFilePath p (.dir nm cs) x

/-- A well-formed filesystem name: no separator byte occurs in it. -/
def ValidName (nm : List Nat) : Prop := sepByte ∉ nm

/-- A well-formed directory tree: every name is separator-free and the
children of each directory have pairwise distinct names. -/
inductive Valid : FSNode → Prop
  | file (nm : List Nat) : ValidName nm → Valid (.file nm)
  | symlink (nm : List Nat) : ValidName nm → Valid (.symlink nm)
  | dir (nm : List Nat) (cs : FSList) : ValidName nm →
      ((cs.toList.map FSNode.name).Nodup) →
      (∀ c ∈ cs.toList, Valid c) → Valid (.dir nm cs)

section ByteOrder

/-- `bytesLe` is reflexive. -/
theorem bytesLe_refl : ∀ x, bytesLe x x = true := by
  intro x
  induction x with
  | nil => rfl
  | cons a as ih => simp [bytesLe, ih]

/-- `bytesLe` is total. -/
theorem bytesLe_total : ∀ x y, bytesLe x y = true ∨ bytesLe y x = true := by
  intro x
  induction x with
  | nil => intro y; exact Or.inl rfl
  | cons a as ih =>
    intro y
    cases y with
    | nil => exact Or.inr rfl
    | cons b bs =>
      rcases lt_trichotomy a b with h | rfl | h
      · exact Or.inl (by simp [bytesLe, h])
      · rcases ih bs with h | h
        · exact Or.inl (by simp [bytesLe, h])
        · exact Or.inr (by simp [bytesLe, h])
      · exact Or.inr (by simp [bytesLe, h])

/-- `bytesLe` is transitive. -/
theorem bytesLe_trans : ∀ x y z, bytesLe x y = true → bytesLe y z = true →
    bytesLe x z = true := by
  intro x
  induction x with
  | nil => intro y z _ _; rfl
  | cons a as ih =>
    intro y z hxy hyz
    cases y with
    | nil => simp [bytesLe] at hxy
    | cons b bs =>
      cases z with
      | nil => simp [bytesLe] at hyz
      | cons c cs =>
        simp only [bytesLe] at hxy hyz ⊢
        split_ifs at hxy hyz ⊢ <;>
          first
            | rfl
            | (exact ih bs cs hxy hyz)
            | omega

/-- `bytesLt` is `bytesLe` plus disequality. -/
theorem bytesLt_iff : ∀ x y, bytesLt x y = true ↔ (bytesLe x y = true ∧ x ≠ y) := by
  intro x
  induction x with
  | nil =>
    intro y
    cases y with
    | nil => simp [bytesLt, bytesLe]
    | cons b bs => simp [bytesLt, bytesLe]
  | cons a as ih =>
    intro y
    cases y with
    | nil => simp [bytesLt, bytesLe]
    | cons b bs =>
      by_cases hab : a < b
      · simp only [bytesLt, bytesLe, if_pos hab]
        constructor
        · intro _
          refine ⟨by trivial, ?_⟩
          intro hh
          rw [List.cons.injEq] at hh
          exact absurd hh.1 (by omega)
        · intro _
          trivial
      · by_cases hba : b < a
        · simp only [bytesLt, bytesLe, if_neg hab, if_pos hba]
          constructor
          · intro h; cases h
          · rintro ⟨h, -⟩; cases h
        · have : a = b := by omega
          subst this
          have e1 : bytesLt (a :: as) (a :: bs) = bytesLt as bs := by
            simp [bytesLt]
          have e2 : bytesLe (a :: as) (a :: bs) = bytesLe as bs := by
            simp [bytesLe]
          rw [e1, e2, ih bs]
          simp

/-- A proper prefix is strictly smaller. -/
theorem bytesLt_of_prefix_ne : ∀ x y, x <+: y → x ≠ y → bytesLt x y = true := by
  intro x
  induction x with
  | nil =>
    intro y _ hne
    cases y with
    | nil => exact absurd rfl hne
    | cons b bs => rfl
  | cons a as ih =>
    intro y hpre hne
    cases y with
    | nil => exact absurd (List.prefix_nil.mp hpre) (by simp)
    | cons b bs =>
      rw [List.cons_prefix_cons] at hpre
      obtain ⟨rfl, hpre⟩ := hpre
      have hne' : as ≠ bs := fun h => hne (by rw [h])
      have e1 : bytesLt (a :: as) (a :: bs) = bytesLt as bs := by
        simp [bytesLt]
      rw [e1]
      exact ih bs hpre hne'

/-- Strict byte order is preserved under arbitrary extensions when the
smaller key is not a prefix of the larger. -/
theorem bytesLt_append_of_not_prefix : ∀ x y s t, bytesLt x y = true →
    ¬ x <+: y → bytesLt (x ++ s) (y ++ t) = true := by
  intro x
  induction x with
  | nil => intro y s t _ hpre; exact absurd (List.nil_prefix) hpre
  | cons a as ih =>
    intro y s t hlt hpre
    cases y with
    | nil => simp [bytesLt] at hlt
    | cons b bs =>
      by_cases hab : a < b
      · simp [bytesLt, hab]
      · by_cases hba : b < a
        · simp [bytesLt, hab, hba] at hlt
        · have : a = b := by omega
          subst this
          have e1 : bytesLt (a :: as) (a :: bs) = bytesLt as bs := by
            simp [bytesLt]
          have e2 : bytesLt (a :: (as ++ s)) (a :: (bs ++ t))
              = bytesLt (as ++ s) (bs ++ t) := by
            simp [bytesLt]
          rw [e1] at hlt
          simp only [List.cons_append]
          rw [e2]
          refine ih bs s t hlt ?_
          intro hpre'
          exact hpre (List.cons_prefix_cons.mpr ⟨rfl, hpre'⟩)

/-- A name followed by the separator is never a prefix of a
separator-free name. -/
theorem not_prefix_sep_of_not_mem (n1 n2 : List Nat) (h2 : sepByte ∉ n2) :
    ¬ (n1 ++ [sepByte] <+: n2) := by
  intro hpre
  obtain ⟨t, ht⟩ := hpre
  apply h2
  rw [← ht]
  simp

/-- Prefix order between separator-terminated separator-free names
forces the names to be equal. -/
theorem prefix_sep_cancel : ∀ n1 n2 : List Nat, sepByte ∉ n1 → sepByte ∉ n2 →
    n1 ++ [sepByte] <+: n2 ++ [sepByte] → n1 = n2 := by
  intro n1
  induction n1 with
  | nil =>
    intro n2 _ h2 hpre
    cases n2 with
    | nil => rfl
    | cons b bs =>
      rw [List.nil_append, List.cons_append, List.cons_prefix_cons] at hpre
      simp only [List.mem_cons, not_or] at h2
      exact absurd hpre.1 h2.1
  | cons a as ih =>
    intro n2 h1 h2 hpre
    cases n2 with
    | nil =>
      rw [List.cons_append, List.nil_append, List.cons_prefix_cons] at hpre
      simp only [List.mem_cons, not_or] at h1
      exact absurd hpre.1.symm h1.1
    | cons b bs =>
      rw [List.cons_append, List.cons_append, List.cons_prefix_cons] at hpre
      obtain ⟨rfl, hpre⟩ := hpre
      simp only [List.mem_cons, not_or] at h1 h2
      rw [ih bs h1.2 h2.2 hpre]

end ByteOrder

section TreeWalker

instance : IsTotal DirItem itemLe :=
  ⟨fun a b => bytesLe_total (sortkey a) (sortkey b)⟩

instance : IsTrans DirItem itemLe :=
  ⟨fun _ _ _ hab hbc => bytesLe_trans _ _ _ hab hbc⟩

/-- Mutual prefixes are equal. -/
theorem prefix_antisymm {x y : List Nat} (h1 : x <+: y) (h2 : y <+: x) :
    x = y :=
  h1.eq_of_length (le_antisymm h1.length_le h2.length_le)

/-- The sort key of an entry is a prefix of every file path yielded
from inside it. -/
theorem isFilePath_prefix : ∀ {p : List Nat} {n : FSNode} {x : List Nat},
    IsFilePath p n x → sortkey (p, n) <+: x := by
  intro p n x h
  induction h with
  | file p nm => exact List.prefix_refl _
  | dir p nm cs c x hc hx ih =>
    have h1 : (p ++ [sepByte]) <+: childPath p c.name :=
      ⟨c.name, by simp [childPath]⟩
    have h2 : childPath p (FSNode.name c)
        <+: sortkey (childPath p (FSNode.name c), c) := by
      cases c with
      | file nm2 => exact List.prefix_refl _
      | symlink nm2 => exact List.prefix_refl _
      | dir nm2 cs2 => exact ⟨[sepByte], rfl⟩
    exact h1.trans (h2.trans ih)

/-- The only file path of a file entry is the entry's own path. -/
theorem isFilePath_file (p nm x : List Nat) :
    IsFilePath p (.file nm) x → x = p := by
  intro h
  cases h
  rfl

/-- A symlink entry yields no file paths. -/
theorem isFilePath_symlink (p nm x : List Nat) :
    ¬ IsFilePath p (.symlink nm) x := by
  intro h
  cases h

/-- Separation of two stack entries: every file path yielded from the
first is strictly below every file path yielded from the second. -/
def ItemSep (it1 it2 : DirItem) : Prop :=
  ∀ x y, IsFilePath it1.1 it1.2 x → IsFilePath it2.1 it2.2 y →
    bytesLt x y = true

/-- `childPath` with a common parent is injective on names. -/
theorem childPath_inj {p n1 n2 : List Nat} (h : childPath p n1 = childPath p n2) :
    n1 = n2 := by
  unfold childPath at h
  have h2 := List.append_cancel_left h
  injection h2

/-- Sort key of a file child in head-normal form. -/
theorem sortkey_child_file (p nm : List Nat) :
    sortkey (childPath p nm, FSNode.file nm) = p ++ sepByte :: nm := rfl

/-- Sort key of a symlink child in head-normal form. -/
theorem sortkey_child_symlink (p nm : List Nat) :
    sortkey (childPath p nm, FSNode.symlink nm) = p ++ sepByte :: nm := rfl

/-- Sort key of a directory child in head-normal form. -/
theorem sortkey_child_dir (p nm : List Nat) (cs : FSList) :
    sortkey (childPath p nm, FSNode.dir nm cs)
      = p ++ sepByte :: (nm ++ [sepByte]) := by
  show (p ++ sepByte :: nm) ++ [sepByte] = _
  simp

/-- Prefix order cancels a common `p ++ a :: ·` context. -/
theorem prefix_cancel_cons {p : List Nat} {a : Nat} {u v : List Nat}
    (h : p ++ a :: u <+: p ++ a :: v) : u <+: v := by
  rw [show p ++ a :: u = (p ++ [a]) ++ u by simp,
    show p ++ a :: v = (p ++ [a]) ++ v by simp,
    List.prefix_append_right_inj] at h
  exact h

/-- Distinct separator-free sibling names give distinct sort keys. -/
theorem sibling_key_ne (p : List Nat) (c1 c2 : FSNode)
    (h1 : ValidName (FSNode.name c1)) (h2 : ValidName (FSNode.name c2))
    (hne : FSNode.name c1 ≠ FSNode.name c2) :
    sortkey (childPath p (FSNode.name c1), c1)
      ≠ sortkey (childPath p (FSNode.name c2), c2) := by
  have plain_dir : ∀ (n1 n2 : List Nat), ValidName n1 →
      p ++ sepByte :: n1 = p ++ sepByte :: (n2 ++ [sepByte]) → False := by
    intro n1 n2 hv heq
    have h := List.append_cancel_left heq
    injection h with _ h
    exact hv (by rw [h]; simp [ValidName])
  have plain_plain : ∀ (n1 n2 : List Nat), n1 ≠ n2 →
      p ++ sepByte :: n1 = p ++ sepByte :: n2 → False := by
    intro n1 n2 hv heq
    have h := List.append_cancel_left heq
    injection h with _ h
    exact hv h
  cases c1 with
  | file nm =>
    cases c2 with
    | file nm2 =>
      simp only [FSNode.name] at h1 h2 hne ⊢
      rw [sortkey_child_file, sortkey_child_file]
      exact fun heq => plain_plain nm nm2 hne heq
    | symlink nm2 =>
      simp only [FSNode.name] at h1 h2 hne ⊢
      rw [sortkey_child_file, sortkey_child_symlink]
      exact fun heq => plain_plain nm nm2 hne heq
    | dir nm2 cs2 =>
      simp only [FSNode.name] at h1 h2 hne ⊢
      rw [sortkey_child_file, sortkey_child_dir]
      exact fun heq => plain_dir nm nm2 h1 heq
  | symlink nm =>
    cases c2 with
    | file nm2 =>
      simp only [FSNode.name] at h1 h2 hne ⊢
      rw [sortkey_child_symlink, sortkey_child_file]
      exact fun heq => plain_plain nm nm2 hne heq
    | symlink nm2 =>
      simp only [FSNode.name] at h1 h2 hne ⊢
      rw [sortkey_child_symlink, sortkey_child_symlink]
      exact fun heq => plain_plain nm nm2 hne heq
    | dir nm2 cs2 =>
      simp only [FSNode.name] at h1 h2 hne ⊢
      rw [sortkey_child_symlink, sortkey_child_dir]
      exact fun heq => plain_dir nm nm2 h1 heq
  | dir nm cs =>
    cases c2 with
    | file nm2 =>
      simp only [FSNode.name] at h1 h2 hne ⊢
      rw [sortkey_child_dir, sortkey_child_file]
      exact fun heq => plain_dir nm2 nm h2 heq.symm
    | symlink nm2 =>
      simp only [FSNode.name] at h1 h2 hne ⊢
      rw [sortkey_child_dir, sortkey_child_symlink]
      exact fun heq => plain_dir nm2 nm h2 heq.symm
    | dir nm2 cs2 =>
      simp only [FSNode.name] at h1 h2 hne ⊢
      rw [sortkey_child_dir, sortkey_child_dir]
      intro heq
      have h := List.append_cancel_left heq
      injection h with _ h
      exact hne (List.append_cancel_right h)

/-- Cross-sibling separation: if one sibling entry's sort key is
strictly below another's, every file path yielded from inside the first
is strictly below every file path yielded from inside the second. -/
theorem sibling_sep (p : List Nat) (c1 c2 : FSNode)
    (h1 : ValidName (FSNode.name c1)) (h2 : ValidName (FSNode.name c2))
    (hlt : bytesLt (sortkey (childPath p (FSNode.name c1), c1))
        (sortkey (childPath p (FSNode.name c2), c2)) = true) :
    ItemSep (childPath p (FSNode.name c1), c1)
      (childPath p (FSNode.name c2), c2) := by
  intro x y hx hy
  have hpx := isFilePath_prefix hx
  have hpy := isFilePath_prefix hy
  have hne : sortkey (childPath p (FSNode.name c1), c1)
      ≠ sortkey (childPath p (FSNode.name c2), c2) :=
    ((bytesLt_iff _ _).mp hlt).2
  by_cases hpre : sortkey (childPath p (FSNode.name c1), c1)
      <+: sortkey (childPath p (FSNode.name c2), c2)
  · cases c1 with
    | symlink nm =>
      simp only [FSNode.name] at hx
      exact absurd hx (isFilePath_symlink _ _ _)
    | file nm =>
      simp only [FSNode.name] at hx hpre hne
      have hxeq : x = childPath p nm := isFilePath_file _ _ _ hx
      have hk1y : childPath p nm <+: y := hpre.trans hpy
      have hk1ney : childPath p nm ≠ y := by
        intro heq
        exact hne (prefix_antisymm hpre (heq ▸ hpy))
      rw [hxeq]
      exact bytesLt_of_prefix_ne _ _ hk1y hk1ney
    | dir nm cs =>
      exfalso
      simp only [FSNode.name] at h1 hpre hne
      rw [sortkey_child_dir] at hpre
      cases c2 with
      | file nm2 =>
        simp only [FSNode.name] at h2 hpre
        rw [sortkey_child_file] at hpre
        exact not_prefix_sep_of_not_mem nm nm2 h2 (prefix_cancel_cons hpre)
      | symlink nm2 =>
        simp only [FSNode.name] at h2 hpre
        rw [sortkey_child_symlink] at hpre
        exact not_prefix_sep_of_not_mem nm nm2 h2 (prefix_cancel_cons hpre)
      | dir nm2 cs2 =>
        simp only [FSNode.name] at h2 hpre hne
        rw [sortkey_child_dir] at hpre
        have heq := prefix_sep_cancel nm nm2 h1 h2 (prefix_cancel_cons hpre)
        apply hne
        rw [sortkey_child_dir, sortkey_child_dir, heq]
  · obtain ⟨s, hs⟩ := hpx
    obtain ⟨t, ht⟩ := hpy
    rw [← hs, ← ht]
    exact bytesLt_append_of_not_prefix _ _ s t hlt hpre

/-- Every subtree has at least one node. -/
theorem nodeSize_pos (n : FSNode) : 1 ≤ nodeSize n := by
  cases n with
  | file nm => exact le_refl _
  | symlink nm => exact le_refl _
  | dir nm cs => simp [nodeSize]

/-- `listSize` agrees with the sum of the children's sizes. -/
theorem listSize_eq : ∀ cs : FSList,
    listSize cs = (cs.toList.map nodeSize).sum
  | .nil => rfl
  | .cons c cs => by simp [FSList.toList, listSize, listSize_eq cs]

/-- Membership in an expanded directory stack segment. -/
theorem mem_expandDir {p : List Nat} {cs : List FSNode} {it : DirItem} :
    it ∈ expandDir p cs ↔ ∃ c ∈ cs, it = (childPath p (FSNode.name c), c) := by
  unfold expandDir
  rw [(List.perm_insertionSort itemLe _).mem_iff]
  simp [List.mem_map, eq_comm]

/-- Expanding a directory preserves the total node count of its
children. -/
theorem stackSize_expandDir (p : List Nat) (cs : List FSNode) :
    stackSize (expandDir p cs) = (cs.map nodeSize).sum := by
  unfold stackSize expandDir
  have hperm := (List.perm_insertionSort itemLe
    (cs.map (fun c => (childPath p (FSNode.name c), c)))).map
    (fun it : DirItem => nodeSize it.2)
  rw [hperm.sum_eq, List.map_map]
  rfl

/-- The stack size of a concatenation is the sum of the parts. -/
theorem stackSize_append (a b : List DirItem) :
    stackSize (a ++ b) = stackSize a + stackSize b := by
  simp [stackSize]

/-- The names occurring in an expanded directory segment are a
permutation of the children's names. -/
theorem expandDir_names_perm (p : List Nat) (cs : List FSNode) :
    ((expandDir p cs).map (fun it => FSNode.name it.2)).Perm
      (cs.map FSNode.name) := by
  unfold expandDir
  have h2 := (List.perm_insertionSort itemLe
    (cs.map (fun c => (childPath p (FSNode.name c), c)))).map
    (fun it : DirItem => FSNode.name it.2)
  rw [List.map_map] at h2
  exact h2

/-- An expanded directory segment is pairwise separated: the children
are sorted by `sortkey`, their names are distinct and separator-free,
so the keys are strictly ascending and the subtrees' outputs are
ordered. -/
theorem expandDir_pairwise_sep (p : List Nat) (cs : List FSNode)
    (hv : ∀ c ∈ cs, ValidName (FSNode.name c))
    (hnd : (cs.map FSNode.name).Nodup) :
    (expandDir p cs).Pairwise ItemSep := by
  have hnd' : ((expandDir p cs).map (fun it => FSNode.name it.2)).Nodup :=
    ((expandDir_names_perm p cs).nodup_iff).mpr hnd
  have hP1 : (expandDir p cs).Pairwise itemLe :=
    List.sorted_insertionSort itemLe _
  have hP2 : (expandDir p cs).Pairwise
      (fun a b => FSNode.name a.2 ≠ FSNode.name b.2) :=
    List.pairwise_map.mp hnd'
  refine (hP1.and hP2).imp_of_mem ?_
  intro a b ha hb hab
  obtain ⟨c1, hc1, rfl⟩ := mem_expandDir.mp ha
  obtain ⟨c2, hc2, rfl⟩ := mem_expandDir.mp hb
  have hv1 := hv c1 hc1
  have hv2 := hv c2 hc2
  have hkne := sibling_key_ne p c1 c2 hv1 hv2 hab.2
  have hklt : bytesLt (sortkey (childPath p (FSNode.name c1), c1))
      (sortkey (childPath p (FSNode.name c2), c2)) = true :=
    (bytesLt_iff _ _).mpr ⟨hab.1, hkne⟩
  exact sibling_sep p c1 c2 hv1 hv2 hklt

/-- The master invariant of the walker: from a stack of valid, pairwise
separated entries, every yielded path is a regular-file path of one of
the entries, and the yielded paths are strictly ascending in the byte
order. -/
theorem walkF_spec (ex : List Nat → Bool) : ∀ (f : Nat) (s : List DirItem),
    stackSize s ≤ f →
    (∀ it ∈ s, Valid it.2) →
    s.Pairwise ItemSep →
    (∀ x ∈ walkF ex f s, ∃ it ∈ s, IsFilePath it.1 it.2 x) ∧
      (walkF ex f s).Pairwise (fun x y => bytesLt x y = true) := by
  intro f
  induction f with
  | zero =>
    intro s _ _ _
    exact ⟨by simp [walkF], by simp [walkF]⟩
  | succ f ih =>
    intro s hf hv hsep
    match s with
    | [] => exact ⟨by simp [walkF], by simp [walkF]⟩
    | (p, n) :: rest =>
      have hfr : stackSize rest ≤ f := by
        have hn := nodeSize_pos n
        simp only [stackSize, List.map_cons, List.sum_cons] at hf
        simp only [stackSize]
        omega
      have tailspec := ih rest hfr
        (fun it hit => hv it (List.mem_cons_of_mem _ hit)) hsep.of_cons
      have tailgoal : (∀ x ∈ walkF ex f rest,
          ∃ it ∈ (p, n) :: rest, IsFilePath it.1 it.2 x) ∧
          (walkF ex f rest).Pairwise (fun x y => bytesLt x y = true) := by
        refine ⟨fun x hx => ?_, tailspec.2⟩
        obtain ⟨it, hit, hfp⟩ := tailspec.1 x hx
        exact ⟨it, List.mem_cons_of_mem _ hit, hfp⟩
      match n, hv, hsep, hf, tailgoal with
      | .symlink nm, hv, hsep, hf, tailgoal =>
        have hstep : walkF ex (f + 1) ((p, FSNode.symlink nm) :: rest)
            = walkF ex f rest := by
          simp [walkF, FSNode.isSymlink]
        rw [hstep]
        exact tailgoal
      | .file nm, hv, hsep, hf, tailgoal =>
        by_cases hex : ex p = true
        · have hstep : walkF ex (f + 1) ((p, FSNode.file nm) :: rest)
              = walkF ex f rest := by
            simp [walkF, FSNode.isSymlink, hex]
          rw [hstep]
          exact tailgoal
        · have hstep : walkF ex (f + 1) ((p, FSNode.file nm) :: rest)
              = p :: walkF ex f rest := by
            simp [walkF, FSNode.isSymlink, hex]
          rw [hstep]
          constructor
          · intro x hx
            rcases List.mem_cons.mp hx with rfl | hx
            · exact ⟨(x, FSNode.file nm), List.mem_cons_self _ _,
                IsFilePath.file x nm⟩
            · obtain ⟨it, hit, hfp⟩ := tailgoal.1 x hx
              exact ⟨it, hit, hfp⟩
          · refine List.Pairwise.cons ?_ tailgoal.2
            intro y hy
            obtain ⟨it, hit, hfp⟩ := (ih rest hfr
              (fun it hit => hv it (List.mem_cons_of_mem _ hit))
              hsep.of_cons).1 y hy
            exact List.rel_of_pairwise_cons hsep hit p y
              (IsFilePath.file p nm) hfp
      | .dir nm cs, hv, hsep, hf, tailgoal =>
        by_cases hex : ex p = true
        · have hstep : walkF ex (f + 1) ((p, FSNode.dir nm cs) :: rest)
              = walkF ex f rest := by
            simp [walkF, FSNode.isSymlink, hex]
          rw [hstep]
          exact tailgoal
        · have hstep : walkF ex (f + 1) ((p, FSNode.dir nm cs) :: rest)
              = walkF ex f (expandDir p cs.toList ++ rest) := by
            simp [walkF, FSNode.isSymlink, hex]
          have hvd : Valid (FSNode.dir nm cs) := hv _ (List.mem_cons_self _ _)
          have hnames : (cs.toList.map FSNode.name).Nodup := by
            cases hvd with
            | dir _ _ _ hnd _ => exact hnd
          have hkids : ∀ c ∈ cs.toList, Valid c := by
            cases hvd with
            | dir _ _ _ _ hch => exact hch
          have hkidnames : ∀ c ∈ cs.toList, ValidName (FSNode.name c) := by
            intro c hc
            cases hkids c hc with
            | file _ hvn => exact hvn
            | symlink _ hvn => exact hvn
            | dir _ _ hvn _ _ => exact hvn
          have hsize : stackSize (expandDir p cs.toList ++ rest) ≤ f := by
            rw [stackSize_append, stackSize_expandDir]
            simp only [stackSize, List.map_cons, List.sum_cons] at hf
            have : nodeSize (FSNode.dir nm cs)
                = 1 + (cs.toList.map nodeSize).sum := by
              rw [show nodeSize (FSNode.dir nm cs) = 1 + listSize cs from rfl,
                listSize_eq]
            simp only [stackSize]
            omega
          have hvalid : ∀ it ∈ expandDir p cs.toList ++ rest, Valid it.2 := by
            intro it hit
            rcases List.mem_append.mp hit with hit | hit
            · obtain ⟨c, hc, rfl⟩ := mem_expandDir.mp hit
              exact hkids c hc
            · exact hv it (List.mem_cons_of_mem _ hit)
          have hsep' : (expandDir p cs.toList ++ rest).Pairwise ItemSep := by
            rw [List.pairwise_append]
            refine ⟨expandDir_pairwise_sep p cs.toList hkidnames hnames,
              hsep.of_cons, ?_⟩
            intro it1 hit1 it2 hit2
            obtain ⟨c, hc, rfl⟩ := mem_expandDir.mp hit1
            intro x y hx hy
            exact List.rel_of_pairwise_cons hsep hit2 x y
              (IsFilePath.dir p nm cs c x hc hx) hy
          obtain ⟨ha, hb⟩ := ih (expandDir p cs.toList ++ rest) hsize hvalid hsep'
          rw [hstep]
          constructor
          · intro x hx
            obtain ⟨it, hit, hfp⟩ := ha x hx
            rcases List.mem_append.mp hit with hit | hit
            · obtain ⟨c, hc, rfl⟩ := mem_expandDir.mp hit
              exact ⟨(p, FSNode.dir nm cs), List.mem_cons_self _ _,
                IsFilePath.dir p nm cs c x hc hfp⟩
            · exact ⟨it, List.mem_cons_of_mem _ hit, hfp⟩
          · exact hb

/-- C9: for every finite, well-formed directory tree, the sorted tree
walker (`TreeFileIterator`) yields a finite sequence containing only
regular files reachable without traversing a symlink, in strictly
ascending byte order under the sort key (directory key = path plus a
separator suffix, file key = path); a symlink entry is skipped outright
(never descended into, never yielded). -/
theorem claim_C9_tree_walker (ex : List Nat → Bool) (root : List Nat)
    (t : FSNode) (hvalid : Valid t) :
    (∀ x ∈ treeFileIterator ex root t, IsFilePath root t x) ∧
    (treeFileIterator ex root t).Pairwise (fun x y => bytesLt x y = true) ∧
    (∀ (f : Nat) (q nm : List Nat) (rest : List DirItem),
      walkF ex (f + 1) ((q, FSNode.symlink nm) :: rest) = walkF ex f rest) := by
  have h := walkF_spec ex (nodeSize t) [(root, t)]
    (by simp [stackSize]) ?_ (List.pairwise_singleton _ _)
  · refine ⟨?_, h.2, ?_⟩
    · intro x hx
      obtain ⟨it, hit, hfp⟩ := h.1 x hx
      obtain rfl := List.mem_singleton.mp hit
      exact hfp
    · intro f q nm rest
      simp [walkF, FSNode.isSymlink]
  · intro it hit
    obtain rfl := List.mem_singleton.mp hit
    exact hvalid

/-- Witness for C9 at a concrete tree: root `r` containing file `b`,
directory `a` with file `c` inside, and a symlink `d`.  The walk
descends into `a` before yielding `b` (directory key sorts before the
sibling file), skips the symlink, and yields ascending paths. -/
theorem claim_C9_tree_walker_witness :
    Valid (FSNode.dir [114] (.cons (.file [98])
      (.cons (.dir [97] (.cons (.file [99]) .nil))
        (.cons (.symlink [100]) .nil)))) ∧
    treeFileIterator (fun _ => false) [114]
      (FSNode.dir [114] (.cons (.file [98])
        (.cons (.dir [97] (.cons (.file [99]) .nil))
          (.cons (.symlink [100]) .nil))))
      = [[114, 47, 97, 47, 99], [114, 47, 98]] ∧
    (∀ x ∈ treeFileIterator (fun _ => false) [114]
      (FSNode.dir [114] (.cons (.file [98])
        (.cons (.dir [97] (.cons (.file [99]) .nil))
          (.cons (.symlink [100]) .nil)))),
      IsFilePath [114]
        (FSNode.dir [114] (.cons (.file [98])
          (.cons (.dir [97] (.cons (.file [99]) .nil))
            (.cons (.symlink [100]) .nil)))) x) ∧
    (treeFileIterator (fun _ => false) [114]
      (FSNode.dir [114] (.cons (.file [98])
        (.cons (.dir [97] (.cons (.file [99]) .nil))
          (.cons (.symlink [100]) .nil))))).Pairwise
      (fun x y => bytesLt x y = true) := by
  have hvalid : Valid (FSNode.dir [114] (.cons (.file [98])
      (.cons (.dir [97] (.cons (.file [99]) .nil))
        (.cons (.symlink [100]) .nil)))) := by
    refine Valid.dir _ _ ?_ ?_ ?_
    · unfold ValidName sepByte; decide
    · unfold FSList.toList FSNode.name; decide
    · intro c hc
      simp only [FSList.toList, List.mem_cons, List.not_mem_nil, or_false] at hc
      rcases hc with rfl | rfl | rfl
      · exact Valid.file _ (by unfold ValidName sepByte; decide)
      · refine Valid.dir _ _ (by unfold ValidName sepByte; decide)
          (by unfold FSList.toList FSNode.name; decide) ?_
        intro c hc
        simp only [FSList.toList, List.mem_cons, List.not_mem_nil, or_false] at hc
        obtain rfl := hc
        exact Valid.file _ (by unfold ValidName sepByte; decide)
      · exact Valid.symlink _ (by unfold ValidName sepByte; decide)
  have h := claim_C9_tree_walker (fun _ => false) [114] _ hvalid
  exact ⟨hvalid, by decide, h.1, h.2.1⟩

end TreeWalker

/-! ## Statement store, identifier resolver and statement-document
mapper (qdcli/resource.py; crunchyclient/resource.py is the same
algorithm with markers `__`/`_` instead of `..`/`.`)

The statement repository, its `find`/`legacy_query` queries and the
`Transaction`/`NewStatementList` container live in the external
queryduck/crunchylib packages (not under src/); those parts are
modelled from the spec, as marked below.  Committed statements carry a
numeric identity and are referenced as values. -/

/-- A value of the statement model: a statement reference, a
content-addressed blob, a scalar, or Python's `None` (the result of a
hierarchical-path resolution that found nothing). -/
inductive Value
  | stmt (id : Nat)
  | blob (digest : List Char)
  | str (s : List Char)
  | int (n : Int)
  | vnone
deriving DecidableEq

/-- Python truthiness of the values that flow through the resolver. -/
def Value.truthy : Value → Bool
  | .vnone => false
  | .str s => !s.isEmpty
  | .int n => n != 0
  | _ => true

/-- A committed statement: an identity and a (subject, predicate,
object) triple. -/
structure Stmt where
  id : Nat
  subj : Value
  pred : Value
  obj : Value
deriving DecidableEq

/-- The committed statement store. -/
abbrev Store := List Stmt

/-- Match a value against an optional filter (`None` = unconstrained). -/
def matchOpt (v : Value) : Option Value → Bool
  | none => true
  | some w => v == w

/-- Modelled from the spec: `StatementSet.find` of the external
queryduck library filters the committed statements by the given
optional subject/predicate/object; a missing (`None`) field is
unconstrained. -/
def find (store : Store) (s p o : Option Value) : List Stmt :=
  store.filter (fun st =>
    matchOpt st.subj s && matchOpt st.pred p && matchOpt st.obj o)

/-- The store's subjects in order of first appearance. -/
def subjectsIn : Store → List Value
  | [] => []
  | st :: rest => st.subj :: (subjectsIn rest).filter (· != st.subj)

/-- Modelled from the spec: `legacy_query` of the external repository
evaluates conjunctive `predicate == object` filters, returning the
resources (statement references used as subjects) for which a committed
triple exists for every filter. -/
def legacy_query (store : Store) (filters : List (Value × Value)) : List Value :=
  (subjectsIn store).filter (fun s =>
    filters.all (fun f => !(find store (some s) (some f.1) (some f.2)).isEmpty))

/-- The session environment: the committed store, the binding table,
and the two auxiliary resolvers (content references and self-describing
serialized references), both external collaborators.  A `none` result
of `bindings`/`blobOf`/`deser` models the exception the source raises
there. -/
structure Env where
  store : Store
  bindings : List Char → Option Value
  blobOf : List Char → Option Value
  deser : List Char → Option Value

/-- Python `text.split(sep)` for a one-character separator: no
collapsing, the empty string splits to `[""]`. -/
def pySplit (sep : Char) : List Char → List (List Char)
  | [] => [[]]
  | c :: rest =>
    match pySplit sep rest with
    | [] => [[]]
    | g :: gs => if c = sep then [] :: g :: gs else (c :: g) :: gs

/-- The `s.type == s[t]` filters for the intermediate (type) segments of
a hierarchical path: segments equal to `Resource` are skipped; a
missing binding is the raised `UnknownBindingError`. -/
def typeFilters (e : Env) (tv : Value) : List (List Char) → Option (List (Value × Value))
  | [] => some []
  | t :: ts =>
    if t = "Resource".data then typeFilters e tv ts
    else
      match e.bindings t with
      | some w => (typeFilters e tv ts).map (fun fs => (tv, w) :: fs)
      | none => none

/-- The full filter list built by `_parse_identifier` for a
hierarchical path (resource.py 202-209): `type == Resource`, one
`type == s[t]` per named type segment, and `label == last segment`. -/
def buildFilters (e : Env) (parts : List (List Char)) : Option (List (Value × Value)) :=
  match e.bindings "type".data, e.bindings "Resource".data,
      e.bindings "label".data with
  | some tv, some rv, some lv =>
    (typeFilters e tv parts.dropLast).map
      (fun mids => (tv, rv) :: (mids ++ [(lv, Value.str (parts.getLastD []))]))
  | _, _, _ => none

/-- `ResourceProcessor._parse_identifier` (resource.py 195-220) on a
string: a `.`-prefixed binding name, a `/`-prefixed hierarchical path
(query; first match, or `None` when nothing matches), a
`file:`-prefixed content reference, a self-describing serialized
reference (contains `:`), or a literal string.  A `none` result is a
raised exception. -/
def parse_str (e : Env) (v : List Char) : Option Value :=
  if ['.'].isPrefixOf v then e.bindings (v.drop 1)
  else if ['/'].isPrefixOf v then
    match buildFilters e (pySplit '/' (v.drop 1)) with
    | none => none
    | some fs =>
      some (match legacy_query e.store fs with
        | [] => .vnone
        | s :: _ => s)
  else if ("file:".data).isPrefixOf v then e.blobOf (v.drop 5)
  else if v.contains ':' then e.deser v
  else some (.str v)

mutual
/-- A document value as parsed from the editable YAML text: a string,
an integer, a list, or a mapping (used for `+`-marked meta-statement
annotations). -/
inductive DocVal
  | vstr (s : List Char)
  | vint (n : Int)
  | vlist (items : DocVals)
  | vdict (entries : DocDict)
deriving DecidableEq
/-- A list of document values. -/
inductive DocVals
  | nil
  | cons (hd : DocVal) (tl : DocVals)
deriving DecidableEq
/-- A string-keyed document mapping (also the top-level document). -/
inductive DocDict
  | nil
  | cons (key : List Char) (val : DocVal) (tl : DocDict)
deriving DecidableEq
end

/-- The items of a document list as an ordinary list. -/
def DocVals.toList : DocVals → List DocVal
  | .nil => []
  | .cons v vs => v :: vs.toList

/-- The entries of a document mapping as an ordinary list. -/
def DocDict.toList : DocDict → List (List Char × DocVal)
  | .nil => []
  | .cons k v tl => (k, v) :: tl.toList

/-- Python `d[key]` lookup (as an option). -/
def dictGet : DocDict → List Char → Option DocVal
  | .nil, _ => none
  | .cons k v tl, key => if k = key then some v else dictGet tl key

/-- `_parse_identifier` on a document value: a non-string input is
returned unchanged by the source (rule 1); here a scalar maps to the
corresponding `Value`, and a structured input — which the source would
pass through as an opaque Python object that can never equal a store
value and which none of the verified claims exercise — is mapped to the
error result. -/
def parse_identifier (e : Env) : DocVal → Option Value
  | .vstr s => parse_str e s
  | .vint n => some (.int n)
  | _ => none

/-- A raw (unparsed) document scalar used as a meta-statement object
(the source passes the YAML value through unparsed). -/
def rawValue : DocVal → Option Value
  | .vstr s => some (.str s)
  | .vint n => some (.int n)
  | _ => none

/-- The `if type(objects) != list: objects = [objects]` normalization. -/
def objListOf : DocVal → List DocVal
  | .vlist items => items.toList
  | v => [v]

/-- A subject/object slot of a not-yet-committed statement: an existing
value, or a handle to an earlier entry of the same transaction. -/
inductive TRef
  | value (v : Value)
  | tx (idx : Nat)
deriving DecidableEq

/-- A not-yet-committed statement addition (`subj` is `none` for the
anonymous new-resource row `transaction.add(None, s.type,
s.Resource)`). -/
structure TxEntry where
  subj : Option TRef
  pred : Value
  obj : Value
deriving DecidableEq

/-- Modelled from the spec: a `Transaction` / `NewStatementList` of the
external library is an ordered list of not-yet-committed statement
additions, submitted as one unit. -/
abbrev Transaction := List TxEntry

/-- Modelled from the spec: `transaction.add` appends an addition and
returns a handle to it. -/
def txAdd (t : Transaction) (s : Option TRef) (p o : Value) :
    Transaction × TRef :=
  (t ++ [⟨s, p, o⟩], TRef.tx t.length)

/-- The meta pairs `(kk, vv)` of a `+`-marked mapping (resource.py
37-47): each non-`+` entry contributes one pair per (normalized-to-list)
value; the key is parsed, the value is used raw. -/
def metaPairs (e : Env) : List (List Char × DocVal) → Option (List (Value × Value))
  | [] => some []
  | (k, v) :: rest =>
    if k = "+".data then metaPairs e rest
    else
      match parse_str e k, (objListOf v).mapM rawValue, metaPairs e rest with
      | some kk, some vvs, some more =>
        some (vvs.map (fun vv => (kk, vv)) ++ more)
      | _, _, _ => none

/-- The object analysis of one object reference inside
`update_resource` (resource.py 34-50): resolve the object, and collect
its meta pairs when it is a `+`-marked mapping. -/
def objAnalysis (e : Env) : DocVal → Option (Value × List (Value × Value))
  | .vdict d =>
    if (dictGet d "+".data).isSome then
      match dictGet d "+".data with
      | some plus =>
        match parse_identifier e plus, metaPairs e d.toList with
        | some o, some metas => some (o, metas)
        | _, _ => none
      | none => none
    else (parse_identifier e (.vdict d)).map (fun o => (o, []))
  | v => (parse_identifier e v).map (fun o => (o, []))

/-- Processing of one object reference inside `update_resource`
(resource.py 34-62), continued: branch on the analyzed object. -/
def processObj (e : Env) (resource : Option Value) (mainRef : TRef)
    (p : Value) (existingObjects : List Value)
    (t : Transaction) (o_ref : DocVal) : Option Transaction :=
  match objAnalysis e o_ref with
  | none => none
  | some (o, metas) =>
    if o ∈ existingObjects then
      match find e.store resource (some p) (some o) with
      | [] => none
      | st :: _ =>
        some (metas.foldl (fun t2 pr_ob =>
          if (find e.store (some (.stmt st.id)) (some pr_ob.1)
              (some pr_ob.2)).isEmpty then
            t2 ++ [⟨some (.value (.stmt st.id)), pr_ob.1, pr_ob.2⟩]
          else t2) t)
    else
      match e.bindings "type".data, e.bindings "Resource".data with
      | some tv, some rv =>
        if p = tv ∧ o = rv then some t
        else
          let (t1, st) := txAdd t (some mainRef) p o
          some (metas.foldl (fun t2 pr_ob =>
            t2 ++ [⟨some st, pr_ob.1, pr_ob.2⟩]) t1)
      | _, _ => none

/-- Processing of one attribute key inside `update_resource`
(resource.py 26-33): reserved `..`-prefixed keys are skipped; then the
predicate is resolved and the existing objects for it are read from the
store once, before the key's object list is processed. -/
def processKey (e : Env) (resource : Option Value) (mainRef : TRef)
    (t : Transaction) (kv : List Char × DocVal) : Option Transaction :=
  if ['.', '.'].isPrefixOf kv.1 then some t
  else
    match parse_str e kv.1 with
    | none => none
    | some p =>
      let existingObjects :=
        (find e.store resource (some p) none).map (fun st => st.obj)
      (objListOf kv.2).foldlM
        (processObj e resource mainRef p existingObjects) t

/-- `ResourceProcessor.update_resource` (resource.py 19-64): build the
transaction for one document against one (possibly missing) existing
subject.  The `submit` call at the end is the external repository's
side; the function returns the transaction it would submit, `none` for
a raised exception. -/
def update_resource (e : Env) (resource : Option Value)
    (attributes : List (List Char × DocVal)) : Option Transaction :=
  match resource with
  | some r =>
    attributes.foldlM (processKey e (some r) (TRef.value r)) []
  | none =>
    match e.bindings "type".data, e.bindings "Resource".data with
    | some tv, some rv =>
      let t0 := txAdd [] none tv rv
      attributes.foldlM (processKey e none t0.2) t0.1
    | _, _ => none

/-- `ResourceProcessor.update_from_doc` (resource.py 66-74): load the
subject from the reserved `..s` (or `..r`) key and update it from the
document.  A falsy loaded subject (Python `None`) is normalized to the
missing-resource case, exactly as `update_resource`'s `if resource:`
and `find(s=None, ...)` treat it. -/
def update_from_doc (e : Env) (doc : DocDict) : Option Transaction :=
  match dictGet doc "..s".data with
  | some v =>
    match parse_identifier e v with
    | none => none
    | some r =>
      update_resource e (if r.truthy then some r else none) doc.toList
  | none =>
    match dictGet doc "..r".data with
    | some v =>
      match parse_identifier e v with
      | none => none
      | some r =>
        update_resource e (if r.truthy then some r else none) doc.toList
    | none => update_resource e none doc.toList

/-- Build a `DocVals` from an ordinary list. -/
def DocVals.ofList : List DocVal → DocVals
  | [] => .nil
  | v :: vs => .cons v (DocVals.ofList vs)

/-- `ResourceProcessor.new` (resource.py 145-154): the minimal
placeholder document for a not-yet-existing `/Type/.../Label`
reference: its declared identity, the declared type chain, and the
label — nothing else.  (For a reference without the leading `/` the
source leaves `doc` unbound and raises; that case is never reached.) -/
def new (ref : List Char) : DocDict :=
  if ['/'].isPrefixOf ref then
    let parts := pySplit '/' (ref.drop 1)
    .cons "..r".data (.vstr ref)
      (.cons "_type".data
        (.vlist (DocVals.ofList (DocVal.vstr "_Resource".data ::
          (parts.dropLast.filter (· != "Resource".data)).map
            (fun t => DocVal.vstr ('_' :: t)))))
        (.cons "_label".data (.vstr (parts.getLastD [])) .nil))
  else .nil

mutual
/-- Modelled from the spec: the reference scan of the edit loop
traverses every nested value through the external `transform_doc`,
collecting each string value with a leading `/`. -/
def collectRefs : DocVal → List (List Char)
  | .vstr s => if ['/'].isPrefixOf s then [s] else []
  | .vint _ => []
  | .vlist items => collectRefsList items
  | .vdict entries => collectRefsDict entries
/-- Reference scan over a document list value. -/
def collectRefsList : DocVals → List (List Char)
  | .nil => []
  | .cons v vs => collectRefs v ++ collectRefsList vs
/-- Reference scan over a document mapping value. -/
def collectRefsDict : DocDict → List (List Char)
  | .nil => []
  | .cons _ v tl => collectRefs v ++ collectRefsDict tl
end

/-- The `tmpdoc` filter of the edit loop (resource.py 181-182): drop
the reserved `..`-prefixed top-level keys before scanning. -/
def filterReserved : DocDict → DocDict
  | .nil => .nil
  | .cons k v tl =>
    if ['.', '.'].isPrefixOf k then filterReserved tl
    else .cons k v (filterReserved tl)

/-- All hierarchical-path-style references in the non-reserved fields
of one document. -/
def docRefs (doc : DocDict) : List (List Char) :=
  collectRefsDict (filterReserved doc)

/-- The declared-identity scan of the edit loop (resource.py 185-187):
`for doc in docs: if doc['..r'] == ref: break` walks the documents in
order, stopping with `true` at the first document whose `..r` value
equals the reference; a document with no `..r` key is a raised
`KeyError` (`none`); a non-`str` `..r` value merely compares unequal. -/
def docRScan (ref : List Char) : List DocDict → Option Bool
  | [] => some false
  | d :: ds =>
    match dictGet d "..r".data with
    | none => none
    | some v => if v = DocVal.vstr ref then some true else docRScan ref ds

/-- The per-reference loop of one `edit_docs` pass (resource.py
184-192): a reference that is the declared `..r` identity of some
document in the (growing) set is skipped; otherwise it is resolved, and
if the resolution is falsy a placeholder is appended and the pass is
marked as having discovered new resources.  `none` models the
exceptions the pass can raise: the `KeyError` of the identity scan and
a failing resolution. -/
def passFold (e : Env) : List (List Char) → List DocDict → Bool →
    Option (List DocDict × Bool)
  | [], docs, seen => some (docs, seen)
  | ref :: refs, docs, seen =>
    match docRScan ref docs with
    | none => none
    | some true => passFold e refs docs seen
    | some false =>
      match parse_str e ref with
      | none => none
      | some r =>
        if r.truthy then passFold e refs docs seen
        else passFold e refs (docs ++ [new ref]) true

/-- The scan phase of one `edit_docs` pass: collect the references of
all documents, then run the per-reference loop. -/
def scan_docs (e : Env) (docs : List DocDict) :
    Option (List DocDict × Bool) :=
  passFold e (docs.flatMap docRefs) docs false

/-- `ResourceProcessor.edit_docs` (resource.py 168-193): repeat
(external editor round, reference scan) until a pass discovers no new
resources; the editor is an abstract function on the document set, the
fuel bounds the number of passes (`none` = the bound was reached or a
scan raised). -/
def edit_docs (e : Env) (editor : List DocDict → List DocDict) :
    Nat → List DocDict → Option (List DocDict)
  | 0, _ => none
  | fuel + 1, docs =>
    match scan_docs e (editor docs) with
    | none => none
    | some (docs2, seen) =>
      if seen then edit_docs e editor fuel docs2 else some docs2

/-- The commit phase of `edit`/`file_edit` (resource.py 165-166,
storage.py 69-70): `for doc in docs[::-1]: update_from_doc(doc)` — the
documents are committed in reverse of their final ordering, each
submission (the external repository effect, abstracted as `submitF`)
taking effect before the next document is processed.  Returns the
per-document transactions in commit order. -/
def commit_docs (e : Env) (submitF : Env → Option Transaction → Env)
    (docs : List DocDict) : List (DocDict × Option Transaction) :=
  ((docs.reverse).foldl (fun acc doc =>
    let t := update_from_doc acc.1 doc
    (submitF acc.1 t, acc.2 ++ [(doc, t)])) (e, [])).2

/-- `ResourceProcessor.edit` (resource.py 156-166), from the point the
documents are loaded: converge the edit loop, then commit the final
set in reverse order. -/
def edit (e : Env) (editor : List DocDict → List DocDict)
    (submitF : Env → Option Transaction → Env) (fuel : Nat)
    (docs0 : List DocDict) : Option (List (DocDict × Option Transaction)) :=
  (edit_docs e editor fuel docs0).map (commit_docs e submitF)

section UpdateResource

/-- A triple is committed exactly when `find` on it is non-empty. -/
theorem find_spec (store : Store) (S p o : Value) :
    find store (some S) (some p) (some o) ≠ [] ↔
      ∃ st ∈ store, st.subj = S ∧ st.pred = p ∧ st.obj = o := by
  constructor
  · intro h
    rcases hx : find store (some S) (some p) (some o) with _ | ⟨st, rest⟩
    · exact absurd hx h
    · have hm : st ∈ find store (some S) (some p) (some o) := by
        rw [hx]; exact List.mem_cons_self _ _
      rw [find, List.mem_filter] at hm
      obtain ⟨hmem, hb⟩ := hm
      simp only [matchOpt, Bool.and_eq_true, beq_iff_eq] at hb
      exact ⟨st, hmem, hb.1.1, hb.1.2, hb.2⟩
  · rintro ⟨st, hmem, h1, h2, h3⟩ hnil
    have hm : st ∈ find store (some S) (some p) (some o) := by
      rw [find, List.mem_filter]
      exact ⟨hmem, by simp [matchOpt, h1, h2, h3]⟩
    rw [hnil] at hm
    cases hm

/-- An object is among a predicate's existing objects exactly when the
triple is committed. -/
theorem mem_existing_iff (store : Store) (S p o : Value) :
    (o ∈ (find store (some S) (some p) none).map (fun st => st.obj)) ↔
      find store (some S) (some p) (some o) ≠ [] := by
  rw [find_spec]
  constructor
  · intro h
    rw [List.mem_map] at h
    obtain ⟨st, hmem, rfl⟩ := h
    rw [find, List.mem_filter] at hmem
    obtain ⟨hmem, hb⟩ := hmem
    simp only [matchOpt, Bool.and_eq_true, beq_iff_eq, and_true] at hb
    exact ⟨st, hmem, hb.1, hb.2, rfl⟩
  · rintro ⟨st, hmem, h1, h2, h3⟩
    rw [List.mem_map]
    refine ⟨st, ?_, h3⟩
    rw [find, List.mem_filter]
    exact ⟨hmem, by simp [matchOpt, h1, h2]⟩

/-- The transaction invariant of `update_resource`: an entry whose
subject slot is an existing value was added only under an emptiness
check of the corresponding committed triple. -/
def TxInv (store : Store) (t : Transaction) : Prop :=
  ∀ entry ∈ t, ∀ v : Value, entry.subj = some (TRef.value v) →
    find store (some v) (some entry.pred) (some entry.obj) = []

/-- The meta fold over an existing triple preserves the transaction
invariant. -/
theorem metaFoldExisting_inv (e : Env) (stid : Nat)
    (metas : List (Value × Value)) :
    ∀ t : Transaction, TxInv e.store t →
      TxInv e.store (metas.foldl (fun t2 pr_ob =>
        if (find e.store (some (.stmt stid)) (some pr_ob.1)
            (some pr_ob.2)).isEmpty then
          t2 ++ [⟨some (.value (.stmt stid)), pr_ob.1, pr_ob.2⟩]
        else t2) t) := by
  induction metas with
  | nil => intro t hP; exact hP
  | cons pr_ob rest ih =>
    intro t hP
    simp only [List.foldl_cons]
    refine ih _ ?_
    by_cases hc : (find e.store (some (.stmt stid)) (some pr_ob.1)
        (some pr_ob.2)).isEmpty = true
    · simp only [if_pos hc]
      intro entry hentry v hv
      rcases List.mem_append.mp hentry with hentry | hentry
      · exact hP entry hentry v hv
      · obtain rfl := List.mem_singleton.mp hentry
        simp only at hv
        obtain ⟨rfl⟩ : Value.stmt stid = v := by
          injection hv with hv'
          injection hv'
        simpa [List.isEmpty_iff] using hc
    · simp only [if_neg hc]
      exact hP

/-- The meta fold over a freshly added triple only appends entries
whose subject is a transaction handle, preserving the invariant. -/
theorem metaFoldNew_inv (store : Store) (st : TRef)
    (hst : ∀ v, st ≠ TRef.value v) (metas : List (Value × Value)) :
    ∀ t : Transaction, TxInv store t →
      TxInv store (metas.foldl (fun t2 pr_ob =>
        t2 ++ [⟨some st, pr_ob.1, pr_ob.2⟩]) t) := by
  induction metas with
  | nil => intro t hP; exact hP
  | cons pr_ob rest ih =>
    intro t hP
    simp only [List.foldl_cons]
    refine ih _ ?_
    intro entry hentry v hv
    rcases List.mem_append.mp hentry with hentry | hentry
    · exact hP entry hentry v hv
    · obtain rfl := List.mem_singleton.mp hentry
      simp only at hv
      injection hv with hv'
      exact absurd hv' (hst v)

/-- `processObj` preserves the transaction invariant. -/
theorem processObj_inv (e : Env) (resource : Option Value) (mainRef : TRef)
    (p : Value) (t : Transaction) (o_ref : DocVal) (t2 : Transaction)
    (h : processObj e resource mainRef p
      ((find e.store resource (some p) none).map (fun st => st.obj))
      t o_ref = some t2)
    (hmain : ∀ v, mainRef = TRef.value v → resource = some v)
    (hP : TxInv e.store t) : TxInv e.store t2 := by
  unfold processObj at h
  rcases hom : objAnalysis e o_ref with _ | ⟨o, metas⟩
  · rw [hom] at h; cases h
  · rw [hom] at h
    dsimp only at h
    by_cases hmem : o ∈ (find e.store resource (some p) none).map
        (fun st => st.obj)
    · rw [if_pos hmem] at h
      rcases hfind : find e.store resource (some p) (some o) with _ | ⟨st, sts⟩
      · rw [hfind] at h; cases h
      · rw [hfind] at h
        obtain rfl := Option.some.inj h
        exact metaFoldExisting_inv e st.id metas t hP
    · rw [if_neg hmem] at h
      rcases htv : e.bindings "type".data with _ | tv
      · rw [htv] at h; cases h
      rcases hrv : e.bindings "Resource".data with _ | rv
      · rw [htv, hrv] at h; cases h
      rw [htv, hrv] at h
      dsimp only at h
      by_cases hguard : p = tv ∧ o = rv
      · rw [if_pos hguard] at h
        obtain rfl := Option.some.inj h
        exact hP
      · rw [if_neg hguard] at h
        simp only [txAdd] at h
        obtain rfl := Option.some.inj h
        refine metaFoldNew_inv e.store (TRef.tx t.length)
          (by intro v h'; cases h') metas _ ?_
        intro entry hentry v hv
        rcases List.mem_append.mp hentry with hentry | hentry
        · exact hP entry hentry v hv
        · obtain rfl := List.mem_singleton.mp hentry
          simp only at hv
          injection hv with hv'
          obtain rfl := (hmain v hv')
          have := (not_iff_not.mpr (mem_existing_iff e.store v p o)).mp hmem
          simpa using this

/-- A monadic fold of `processObj` steps preserves the invariant. -/
theorem foldlM_processObj_inv (e : Env) (resource : Option Value)
    (mainRef : TRef) (p : Value)
    (hmain : ∀ v, mainRef = TRef.value v → resource = some v) :
    ∀ (objs : List DocVal) (t0 tx : Transaction), TxInv e.store t0 →
      List.foldlM (processObj e resource mainRef p
        ((find e.store resource (some p) none).map (fun st => st.obj)))
        t0 objs = some tx →
      TxInv e.store tx := by
  intro objs
  induction objs with
  | nil =>
    intro t0 tx h0 h
    obtain rfl := Option.some.inj h
    exact h0
  | cons o_ref rest ih =>
    intro t0 tx h0 h
    simp only [List.foldlM, bind, Option.bind] at h
    rcases hstep : processObj e resource mainRef p
        ((find e.store resource (some p) none).map (fun st => st.obj))
        t0 o_ref with _ | t1
    · rw [hstep] at h; cases h
    · rw [hstep] at h
      exact ih t1 tx (processObj_inv e resource mainRef p t0 o_ref t1 hstep
        hmain h0) h

/-- `processKey` preserves the transaction invariant. -/
theorem processKey_inv (e : Env) (resource : Option Value) (mainRef : TRef)
    (t : Transaction) (kv : List Char × DocVal) (t2 : Transaction)
    (h : processKey e resource mainRef t kv = some t2)
    (hmain : ∀ v, mainRef = TRef.value v → resource = some v)
    (hP : TxInv e.store t) : TxInv e.store t2 := by
  unfold processKey at h
  by_cases hres : (['.', '.'].isPrefixOf kv.1) = true
  · rw [if_pos hres] at h
    obtain rfl := Option.some.inj h
    exact hP
  · rw [if_neg hres] at h
    rcases hp : parse_str e kv.1 with _ | p
    · rw [hp] at h; cases h
    rw [hp] at h
    dsimp only at h
    exact foldlM_processObj_inv e resource mainRef p hmain _ t t2 hP h

/-- A monadic fold of `processKey` steps preserves the invariant. -/
theorem foldlM_processKey_inv (e : Env) (resource : Option Value)
    (mainRef : TRef)
    (hmain : ∀ v, mainRef = TRef.value v → resource = some v) :
    ∀ (attrs : List (List Char × DocVal)) (t0 tx : Transaction),
      TxInv e.store t0 →
      List.foldlM (processKey e resource mainRef) t0 attrs = some tx →
      TxInv e.store tx := by
  intro attrs
  induction attrs with
  | nil =>
    intro t0 tx h0 h
    obtain rfl := Option.some.inj h
    exact h0
  | cons kv rest ih =>
    intro t0 tx h0 h
    simp only [List.foldlM, bind, Option.bind] at h
    rcases hstep : processKey e resource mainRef t0 kv with _ | t1
    · rw [hstep] at h; cases h
    · rw [hstep] at h
      exact ih t1 tx (processKey_inv e resource mainRef t0 kv t1 hstep
        hmain h0) h

/-- `update_resource` builds only invariant-respecting transactions:
every entry over an existing subject value corresponds to a triple that
was not yet committed. -/
theorem update_resource_inv (e : Env) (resource : Option Value)
    (attrs : List (List Char × DocVal)) (tx : Transaction)
    (h : update_resource e resource attrs = some tx) : TxInv e.store tx := by
  unfold update_resource at h
  rcases resource with _ | r
  · rcases htv : e.bindings "type".data with _ | tv
    · rw [htv] at h; cases h
    rcases hrv : e.bindings "Resource".data with _ | rv
    · rw [htv, hrv] at h; cases h
    rw [htv, hrv] at h
    dsimp only at h
    simp only [txAdd, List.nil_append, List.length_nil] at h
    refine foldlM_processKey_inv e none (TRef.tx 0)
      (by intro v h'; cases h') attrs _ tx ?_ h
    intro entry hentry v hv
    obtain rfl := List.mem_singleton.mp hentry
    cases hv
  · refine foldlM_processKey_inv e (some r) (TRef.value r) ?_ attrs [] tx ?_ h
    · intro v h'
      injection h' with h''
      rw [h'']
    · intro entry hentry
      cases hentry

/-- A singleton monadic fold is one step. -/
theorem foldlM_singleton {α β : Type} (f : β → α → Option β) (b : β) (a : α) :
    List.foldlM f b [a] = f b a := by
  simp only [List.foldlM, bind, Option.bind]
  rcases h : f b a with _ | v <;> simp [h]

/-- Entries already in the transaction survive the meta fold. -/
theorem metaFoldExisting_mono (e : Env) (stid : Nat) (entry : TxEntry) :
    ∀ (metas : List (Value × Value)) (t : Transaction), entry ∈ t →
      entry ∈ metas.foldl (fun t2 pr_ob =>
        if (find e.store (some (.stmt stid)) (some pr_ob.1)
            (some pr_ob.2)).isEmpty then
          t2 ++ [⟨some (.value (.stmt stid)), pr_ob.1, pr_ob.2⟩]
        else t2) t := by
  intro metas
  induction metas with
  | nil => intro t ht; exact ht
  | cons pr_ob rest ih =>
    intro t ht
    simp only [List.foldl_cons]
    refine ih _ ?_
    by_cases hc : (find e.store (some (.stmt stid)) (some pr_ob.1)
        (some pr_ob.2)).isEmpty = true
    · simp only [if_pos hc]
      exact List.mem_append_left _ ht
    · simp only [if_neg hc]
      exact ht

/-- A not-yet-existing meta pair is added by the meta fold over an
existing triple. -/
theorem metaFoldExisting_mem (e : Env) (stid : Nat) (pr ob : Value) :
    ∀ (metas : List (Value × Value)) (t : Transaction), (pr, ob) ∈ metas →
      find e.store (some (.stmt stid)) (some pr) (some ob) = [] →
      (⟨some (.value (.stmt stid)), pr, ob⟩ : TxEntry) ∈
        metas.foldl (fun t2 pr_ob =>
          if (find e.store (some (.stmt stid)) (some pr_ob.1)
              (some pr_ob.2)).isEmpty then
            t2 ++ [⟨some (.value (.stmt stid)), pr_ob.1, pr_ob.2⟩]
          else t2) t := by
  intro metas
  induction metas with
  | nil => intro t ht; cases ht
  | cons pr_ob rest ih =>
    intro t ht hempty
    rcases List.mem_cons.mp ht with heq | ht'
    · obtain rfl := heq.symm
      have hcond : (find e.store (some (Value.stmt stid)) (some pr)
          (some ob)).isEmpty = true := by
        rw [hempty]; rfl
      rw [List.foldl_cons]
      dsimp only
      rw [if_pos hcond]
      exact metaFoldExisting_mono e stid _ rest _
        (List.mem_append_right _ (List.mem_singleton.mpr rfl))
    · rw [List.foldl_cons]
      exact ih _ ht' hempty

/-- The object analysis of a plain (successfully parsed, meta-free)
object reference. -/
theorem objAnalysis_plain (e : Env) (o_ref : DocVal) (o : Value)
    (ho : parse_identifier e o_ref = some o) :
    objAnalysis e o_ref = some (o, []) := by
  rcases o_ref with s | n | items | dd
  · simp [objAnalysis, ho]
  · simp [objAnalysis, ho]
  · simp [parse_identifier] at ho
  · simp [parse_identifier] at ho

/-- The object analysis of a `+`-marked mapping. -/
theorem objAnalysis_meta (e : Env) (d : DocDict) (plusRef : DocVal)
    (o : Value) (metas : List (Value × Value))
    (hplus : dictGet d "+".data = some plusRef)
    (hpo : parse_identifier e plusRef = some o)
    (hmetas : metaPairs e d.toList = some metas) :
    objAnalysis e (.vdict d) = some (o, metas) := by
  simp [objAnalysis, hplus, hpo, hmetas]

/-- C3: for an existing subject `S` with an already-committed triple
`(S, p, o)`, running `update_resource` (the core of `from_document`)
again with a document containing the pair `(p, o)` never adds a new
`(S, p, o)` entry to the transaction, while a meta pair listed on that
object that does not yet exist on the (first) committed triple is still
added. -/
theorem claim_C3_ensure_idempotent (e : Env) (S p o : Value)
    (p_ref : List Char) (d : DocDict) (plusRef : DocVal)
    (st0 : Stmt) (sts : List Stmt) (metas : List (Value × Value))
    (pr ob : Value)
    (hcommitted : find e.store (some S) (some p) (some o) = st0 :: sts)
    (hres : (['.', '.'].isPrefixOf p_ref) = false)
    (hp : parse_str e p_ref = some p)
    (hplus : dictGet d "+".data = some plusRef)
    (hpo : parse_identifier e plusRef = some o)
    (hmetas : metaPairs e d.toList = some metas)
    (hmeta_mem : (pr, ob) ∈ metas)
    (hnometa : find e.store (some (.stmt st0.id)) (some pr) (some ob) = []) :
    (∀ (attrs : List (List Char × DocVal)) (tx : Transaction),
      update_resource e (some S) attrs = some tx →
      (⟨some (.value S), p, o⟩ : TxEntry) ∉ tx) ∧
    (∃ tx, update_resource e (some S) [(p_ref, .vdict d)] = some tx ∧
      (⟨some (.value (.stmt st0.id)), pr, ob⟩ : TxEntry) ∈ tx) := by
  have hne : find e.store (some S) (some p) (some o) ≠ [] := by
    rw [hcommitted]; exact List.cons_ne_nil _ _
  constructor
  · intro attrs tx h hmem
    have hinv := update_resource_inv e (some S) attrs tx h
    have := hinv _ hmem S rfl
    exact hne this
  · have hmemo : o ∈ (find e.store (some S) (some p) none).map
        (fun st => st.obj) := (mem_existing_iff e.store S p o).mpr hne
    have e1 : update_resource e (some S) [(p_ref, .vdict d)]
        = processKey e (some S) (TRef.value S) [] (p_ref, .vdict d) := by
      unfold update_resource
      exact foldlM_singleton _ _ _
    have e2 : processKey e (some S) (TRef.value S) [] (p_ref, .vdict d)
        = processObj e (some S) (TRef.value S) p
            ((find e.store (some S) (some p) none).map (fun st => st.obj))
            [] (.vdict d) := by
      unfold processKey
      rw [if_neg (by simp [hres])]
      rw [show ((p_ref, DocVal.vdict d).2) = DocVal.vdict d from rfl]
      rw [show ((p_ref, DocVal.vdict d).1) = p_ref from rfl, hp]
      dsimp only
      rw [show objListOf (.vdict d) = [.vdict d] from rfl, foldlM_singleton]
    have e3 : processObj e (some S) (TRef.value S) p
        ((find e.store (some S) (some p) none).map (fun st => st.obj))
        [] (.vdict d)
        = some (metas.foldl (fun t2 pr_ob =>
            if (find e.store (some (.stmt st0.id)) (some pr_ob.1)
                (some pr_ob.2)).isEmpty then
              t2 ++ [⟨some (.value (.stmt st0.id)), pr_ob.1, pr_ob.2⟩]
            else t2) []) := by
      unfold processObj
      rw [objAnalysis_meta e d plusRef o metas hplus hpo hmetas]
      dsimp only
      rw [if_pos hmemo, hcommitted]
    refine ⟨_, e1.trans (e2.trans e3), ?_⟩
    exact metaFoldExisting_mem e st0.id pr ob metas [] hmeta_mem hnometa

/-- C10: within one `update_resource` call the existing objects for a
predicate are read from the store once, before the document's values
are processed, and are not updated as the transaction grows; a document
listing the same not-yet-existing object twice under one predicate
therefore adds two entries for that identical triple. -/
theorem claim_C10_duplicate_objects (e : Env) (S p o tv rv : Value)
    (p_ref : List Char) (o_ref : DocVal)
    (hres : (['.', '.'].isPrefixOf p_ref) = false)
    (hp : parse_str e p_ref = some p)
    (ho : parse_identifier e o_ref = some o)
    (hnotex : find e.store (some S) (some p) (some o) = [])
    (htv : e.bindings "type".data = some tv)
    (hrv : e.bindings "Resource".data = some rv)
    (hguard : ¬(p = tv ∧ o = rv)) :
    update_resource e (some S)
        [(p_ref, .vlist (.cons o_ref (.cons o_ref .nil)))]
      = some [⟨some (.value S), p, o⟩, ⟨some (.value S), p, o⟩] ∧
    (update_resource e (some S)
        [(p_ref, .vlist (.cons o_ref (.cons o_ref .nil)))]).map
      (fun t => t.count (⟨some (.value S), p, o⟩ : TxEntry)) = some 2 := by
  have hnmem : o ∉ (find e.store (some S) (some p) none).map
      (fun st => st.obj) := by
    rw [mem_existing_iff]
    simp [hnotex]
  have hobj : ∀ t : Transaction, processObj e (some S) (TRef.value S) p
      ((find e.store (some S) (some p) none).map (fun st => st.obj))
      t o_ref = some (t ++ [⟨some (.value S), p, o⟩]) := by
    intro t
    unfold processObj
    rw [objAnalysis_plain e o_ref o ho, htv, hrv]
    dsimp only
    rw [if_neg hnmem]
    rw [if_neg hguard]
    rfl
  have e1 : update_resource e (some S)
      [(p_ref, .vlist (.cons o_ref (.cons o_ref .nil)))]
      = processKey e (some S) (TRef.value S) []
          (p_ref, .vlist (.cons o_ref (.cons o_ref .nil))) := by
    unfold update_resource
    exact foldlM_singleton _ _ _
  have e2 : processKey e (some S) (TRef.value S) []
      (p_ref, .vlist (.cons o_ref (.cons o_ref .nil)))
      = some [⟨some (.value S), p, o⟩, ⟨some (.value S), p, o⟩] := by
    unfold processKey
    rw [if_neg (by simp [hres])]
    rw [show ((p_ref, DocVal.vlist (.cons o_ref (.cons o_ref .nil))).1)
      = p_ref from rfl, hp]
    dsimp only
    rw [show objListOf (.vlist (.cons o_ref (.cons o_ref .nil)))
      = [o_ref, o_ref] from rfl]
    simp only [List.foldlM, bind, Option.bind, hobj]
    rfl
  refine ⟨e1.trans e2, ?_⟩
  rw [e1.trans e2]
  simp [List.count_cons]

/-- A small concrete session used by the resolver/mapper witnesses:
resource `stmt 1` has type `Resource`, label `x`, and value `v1` under
predicate `stmt 200`; bindings exist for `type`, `Resource`, `label`,
`Movie` and `p`. -/
def exampleEnv : Env where
  store := [⟨1, .stmt 1, .stmt 100, .stmt 101⟩,
            ⟨2, .stmt 1, .stmt 102, .str "x".data⟩,
            ⟨3, .stmt 1, .stmt 200, .str "v1".data⟩]
  bindings := fun s =>
    if s = "type".data then some (.stmt 100)
    else if s = "Resource".data then some (.stmt 101)
    else if s = "label".data then some (.stmt 102)
    else if s = "Movie".data then some (.stmt 103)
    else if s = "p".data then some (.stmt 200)
    else none
  blobOf := fun _ => none
  deser := fun _ => none

/-- Witness for C3 at a concrete input: re-adding the committed pair
`(p, "v1")` to `stmt 1` with a new meta annotation adds only the meta
statement. -/
theorem claim_C3_ensure_idempotent_witness :
    (find exampleEnv.store (some (.stmt 1)) (some (.stmt 200))
        (some (.str "v1".data))
      = [⟨3, .stmt 1, .stmt 200, .str "v1".data⟩]) ∧
    update_resource exampleEnv (some (.stmt 1))
        [(".p".data, .vdict (.cons "+".data (.vstr "v1".data)
          (.cons ".label".data (.vstr "note".data) .nil)))]
      = some [⟨some (.value (.stmt 3)), .stmt 102, .str "note".data⟩] ∧
    (∀ (attrs : List (List Char × DocVal)) (tx : Transaction),
      update_resource exampleEnv (some (.stmt 1)) attrs = some tx →
      (⟨some (.value (.stmt 1)), .stmt 200, .str "v1".data⟩ : TxEntry) ∉ tx) ∧
    (∃ tx, update_resource exampleEnv (some (.stmt 1))
        [(".p".data, .vdict (.cons "+".data (.vstr "v1".data)
          (.cons ".label".data (.vstr "note".data) .nil)))] = some tx ∧
      (⟨some (.value (.stmt 3)), .stmt 102, .str "note".data⟩ : TxEntry)
        ∈ tx) := by
  have h := claim_C3_ensure_idempotent exampleEnv (.stmt 1) (.stmt 200)
    (.str "v1".data) ".p".data
    (.cons "+".data (.vstr "v1".data)
      (.cons ".label".data (.vstr "note".data) .nil))
    (.vstr "v1".data) ⟨3, .stmt 1, .stmt 200, .str "v1".data⟩ []
    [(.stmt 102, .str "note".data)] (.stmt 102) (.str "note".data)
    (by decide) (by decide) (by decide) (by decide) (by decide) (by decide)
    (by decide) (by decide)
  exact ⟨by decide, by decide, h.1, h.2⟩

/-- Witness for C10 at a concrete input: the same not-yet-existing
object `v2` listed twice under one predicate yields two identical
transaction entries. -/
theorem claim_C10_duplicate_objects_witness :
    (find exampleEnv.store (some (.stmt 1)) (some (.stmt 200))
      (some (.str "v2".data)) = []) ∧
    (update_resource exampleEnv (some (.stmt 1))
        [(".p".data, .vlist (.cons (.vstr "v2".data)
          (.cons (.vstr "v2".data) .nil)))]
      = some [⟨some (.value (.stmt 1)), .stmt 200, .str "v2".data⟩,
              ⟨some (.value (.stmt 1)), .stmt 200, .str "v2".data⟩] ∧
    (update_resource exampleEnv (some (.stmt 1))
        [(".p".data, .vlist (.cons (.vstr "v2".data)
          (.cons (.vstr "v2".data) .nil)))]).map
      (fun t => t.count (⟨some (.value (.stmt 1)), .stmt 200,
        .str "v2".data⟩ : TxEntry)) = some 2) := by
  have h := claim_C10_duplicate_objects exampleEnv (.stmt 1) (.stmt 200)
    (.str "v2".data) (.stmt 100) (.stmt 101) ".p".data (.vstr "v2".data)
    (by decide) (by decide) (by decide) (by decide) (by decide) (by decide)
    (by decide)
  exact ⟨by decide, h⟩

end UpdateResource

section Resolver

/-- A one-character list is a prefix of `v` exactly when `v` starts
with that character. -/
theorem singleton_isPrefixOf (c : Char) (v : List Char) :
    [c].isPrefixOf v = true ↔ ∃ t, v = c :: t := by
  cases v with
  | nil =>
    constructor
    · intro h; exact absurd h (by simp [List.isPrefixOf])
    · rintro ⟨t, h⟩; cases h
  | cons a as =>
    constructor
    · intro h
      have hc : c = a := by simpa [List.isPrefixOf] using h
      exact ⟨as, by rw [hc]⟩
    · rintro ⟨t, h⟩
      injection h with h1 h2
      simp [List.isPrefixOf, h1]

/-- Characterization of `typeFilters`: the produced filters are exactly
one `type == binding(t)` per non-`Resource` segment `t`. -/
theorem typeFilters_spec (e : Env) (tv : Value) :
    ∀ (parts : List (List Char)) (fs : List (Value × Value)),
      typeFilters e tv parts = some fs →
      (∀ f ∈ fs, f.1 = tv ∧
        ∃ t ∈ parts, t ≠ "Resource".data ∧ e.bindings t = some f.2) ∧
      (∀ t ∈ parts, t ≠ "Resource".data →
        ∃ w, e.bindings t = some w ∧ (tv, w) ∈ fs) := by
  intro parts
  induction parts with
  | nil =>
    intro fs h
    unfold typeFilters at h
    injection h with h
    subst h
    exact ⟨fun f hf => absurd hf (List.not_mem_nil f),
      fun t ht => absurd ht (List.not_mem_nil t)⟩
  | cons t ts ih =>
    intro fs h
    unfold typeFilters at h
    by_cases hres : t = "Resource".data
    · rw [if_pos hres] at h
      obtain ⟨h1, h2⟩ := ih fs h
      refine ⟨?_, ?_⟩
      · intro f hf
        obtain ⟨hf1, t', ht', hne, hb⟩ := h1 f hf
        exact ⟨hf1, t', List.mem_cons_of_mem _ ht', hne, hb⟩
      · intro t' ht' hne
        rcases List.mem_cons.1 ht' with rfl | hmem
        · exact absurd hres hne
        · exact h2 t' hmem hne
    · rw [if_neg hres] at h
      cases hb : e.bindings t with
      | none => rw [hb] at h; exact absurd h (by simp)
      | some w =>
        rw [hb] at h
        dsimp only at h
        cases htf : typeFilters e tv ts with
        | none => rw [htf] at h; exact absurd h (by simp)
        | some mids =>
          rw [htf, Option.map_some'] at h
          injection h with h
          subst h
          obtain ⟨h1, h2⟩ := ih mids htf
          refine ⟨?_, ?_⟩
          · intro f hf
            rcases List.mem_cons.1 hf with rfl | hmem
            · exact ⟨rfl, t, List.mem_cons_self _ _, hres, hb⟩
            · obtain ⟨hf1, t', ht', hne, hbb⟩ := h1 f hmem
              exact ⟨hf1, t', List.mem_cons_of_mem _ ht', hne, hbb⟩
          · intro t' ht' hne
            rcases List.mem_cons.1 ht' with rfl | hmem
            · exact ⟨w, hb, List.mem_cons_self _ _⟩
            · obtain ⟨w', hw', hmem'⟩ := h2 t' hmem hne
              exact ⟨w', hw', List.mem_cons_of_mem _ hmem'⟩

/-- Shape of the full filter list of a hierarchical path:
`type == Resource`, the intermediate type filters, and
`label == last segment`. -/
theorem buildFilters_spec (e : Env) (parts : List (List Char))
    (fs : List (Value × Value)) (tv rv lv : Value)
    (htv : e.bindings "type".data = some tv)
    (hrv : e.bindings "Resource".data = some rv)
    (hlv : e.bindings "label".data = some lv)
    (h : buildFilters e parts = some fs) :
    ∃ mids, typeFilters e tv parts.dropLast = some mids ∧
      fs = (tv, rv) :: (mids ++ [(lv, Value.str (parts.getLastD []))]) := by
  unfold buildFilters at h
  rw [htv, hrv, hlv] at h
  dsimp only at h
  cases htf : typeFilters e tv parts.dropLast with
  | none => rw [htf] at h; exact absurd h (by simp)
  | some mids =>
    rw [htf, Option.map_some'] at h
    injection h with h
    exact ⟨mids, rfl, h.symm⟩

/-- Membership in a `legacy_query` result: a subject of the store
satisfying every filter. -/
theorem legacy_query_mem (store : Store) (filters : List (Value × Value))
    (s : Value) :
    s ∈ legacy_query store filters ↔
      s ∈ subjectsIn store ∧
      ∀ f ∈ filters, find store (some s) (some f.1) (some f.2) ≠ [] := by
  unfold legacy_query
  rw [List.mem_filter]
  constructor
  · rintro ⟨hmem, hall⟩
    refine ⟨hmem, fun f hf => ?_⟩
    have h := List.all_eq_true.1 hall f hf
    intro hnil
    rw [hnil] at h
    exact absurd h (by simp)
  · rintro ⟨hmem, hall⟩
    refine ⟨hmem, List.all_eq_true.2 fun f hf => ?_⟩
    have h := hall f hf
    cases hfind : find store (some s) (some f.1) (some f.2) with
    | nil => exact absurd hfind h
    | cons a as => simp

/-- C6: for a hierarchical path identifier `/Type1/.../Label`,
`_parse_identifier` builds the query `type == Resource`, `type == T`
for each named (non-`Resource`) type segment `T`, `label == Label`,
returns the first match when at least one statement matches, and `None`
(not an error) when none does; a statement matches exactly when it is a
store subject with a committed `type == T` triple for every named type
segment and a committed `label == Label` triple. -/
theorem claim_C6_path_identifier (e : Env) (value : List Char)
    (fs : List (Value × Value)) (tv rv lv : Value)
    (hslash : (['/'].isPrefixOf value) = true)
    (htv : e.bindings "type".data = some tv)
    (hrv : e.bindings "Resource".data = some rv)
    (hlv : e.bindings "label".data = some lv)
    (hfs : buildFilters e (pySplit '/' (value.drop 1)) = some fs) :
    (parse_str e value =
      some (match legacy_query e.store fs with
        | [] => Value.vnone
        | s :: _ => s)) ∧
    (legacy_query e.store fs = [] → parse_str e value = some .vnone) ∧
    (∀ s rest, legacy_query e.store fs = s :: rest →
      parse_str e value = some s) ∧
    (∀ s, s ∈ legacy_query e.store fs ↔
      (s ∈ subjectsIn e.store ∧
       find e.store (some s) (some tv) (some rv) ≠ [] ∧
       (∀ t ∈ (pySplit '/' (value.drop 1)).dropLast, t ≠ "Resource".data →
         ∃ w, e.bindings t = some w ∧
           find e.store (some s) (some tv) (some w) ≠ []) ∧
       find e.store (some s) (some lv)
         (some (.str ((pySplit '/' (value.drop 1)).getLastD []))) ≠ [])) := by
  obtain ⟨tail, htail⟩ := (singleton_isPrefixOf '/' value).1 hslash
  have hdot : (['.'].isPrefixOf value) = false := by
    subst htail; rfl
  have hparse : parse_str e value =
      some (match legacy_query e.store fs with
        | [] => Value.vnone
        | s :: _ => s) := by
    unfold parse_str
    rw [hdot, hslash, hfs]
    rfl
  obtain ⟨mids, hmids, hfseq⟩ :=
    buildFilters_spec e (pySplit '/' (value.drop 1)) fs tv rv lv htv hrv hlv hfs
  obtain ⟨hmids1, hmids2⟩ :=
    typeFilters_spec e tv (pySplit '/' (value.drop 1)).dropLast mids hmids
  refine ⟨hparse, ?_, ?_, ?_⟩
  · intro h
    rw [hparse, h]
  · intro s rest h
    rw [hparse, h]
  · intro s
    rw [legacy_query_mem, hfseq]
    constructor
    · rintro ⟨hsub, hall⟩
      refine ⟨hsub, ?_, ?_, ?_⟩
      · exact hall (tv, rv) (List.mem_cons_self _ _)
      · intro t ht hne
        obtain ⟨w, hw, hmem⟩ := hmids2 t ht hne
        exact ⟨w, hw, hall (tv, w)
          (List.mem_cons_of_mem _ (List.mem_append_left _ hmem))⟩
      · exact hall (lv, .str _) (List.mem_cons_of_mem _
          (List.mem_append_right _ (List.mem_singleton_self _)))
    · rintro ⟨hsub, hmain, hmid, hlab⟩
      refine ⟨hsub, fun f hf => ?_⟩
      rcases List.mem_cons.1 hf with rfl | hf
      · exact hmain
      rcases List.mem_append.1 hf with hf | hf
      · obtain ⟨hf1, t, ht, hne, hb⟩ := hmids1 f hf
        obtain ⟨w, hw, hfind⟩ := hmid t ht hne
        rw [hb] at hw
        injection hw with hw
        rw [hf1, hw]
        exact hfind
      · rw [List.mem_singleton] at hf
        subst hf
        exact hlab

/-- Witness for C6 at concrete inputs: over the example session, `/x`
resolves to the existing resource `stmt 1` (first match) and
`/Movie/Inception` has no match and resolves to `None`. -/
theorem claim_C6_path_identifier_witness :
    (buildFilters exampleEnv (pySplit '/' ("/x".data.drop 1))
      = some [(.stmt 100, .stmt 101), (.stmt 102, .str "x".data)]) ∧
    parse_str exampleEnv "/x".data = some (.stmt 1) ∧
    parse_str exampleEnv "/Movie/Inception".data = some .vnone := by
  have h1 := claim_C6_path_identifier exampleEnv "/x".data
    [(.stmt 100, .stmt 101), (.stmt 102, .str "x".data)]
    (.stmt 100) (.stmt 101) (.stmt 102)
    (by decide) (by decide) (by decide) (by decide) (by decide)
  have h2 := claim_C6_path_identifier exampleEnv "/Movie/Inception".data
    [(.stmt 100, .stmt 101), (.stmt 100, .stmt 103),
     (.stmt 102, .str "Inception".data)]
    (.stmt 100) (.stmt 101) (.stmt 102)
    (by decide) (by decide) (by decide) (by decide) (by decide)
  refine ⟨by decide, ?_, ?_⟩
  · exact h1.2.2.1 (.stmt 1) [] (by decide)
  · exact h2.2.1 (by decide)

end Resolver

section EditLoop

/-- A placeholder document declares its reference as its identity. -/
theorem dictGet_new_r (q : List Char) (h : ['/'].isPrefixOf q = true) :
    dictGet (new q) "..r".data = some (.vstr q) := by
  unfold new
  rw [if_pos h]
  rfl

/-- `new` on a reference without the leading slash (never reached from
the scan). -/
theorem new_of_not_slash (q : List Char) (h : ['/'].isPrefixOf q = false) :
    new q = DocDict.nil := by
  unfold new
  rw [h]
  rfl

/-- A placeholder for a different reference never declares `ref`. -/
theorem dictGet_new_ne (ref q : List Char) (hne : q ≠ ref) :
    dictGet (new q) "..r".data ≠ some (DocVal.vstr ref) := by
  cases hb : ['/'].isPrefixOf q with
  | true =>
    rw [dictGet_new_r q hb]
    intro h
    injection h with h
    injection h with h
    exact hne h
  | false =>
    rw [new_of_not_slash q hb]
    simp [dictGet]

/-- A hit of the declared-identity scan names a document that declares
the reference. -/
theorem docRScan_true (ref : List Char) : ∀ (docs : List DocDict),
    docRScan ref docs = some true →
    ∃ d ∈ docs, dictGet d "..r".data = some (DocVal.vstr ref) := by
  intro docs
  induction docs with
  | nil =>
    intro h
    unfold docRScan at h
    injection h with h
    exact absurd h (by decide)
  | cons d ds ih =>
    intro h
    unfold docRScan at h
    cases hg : dictGet d "..r".data with
    | none => rw [hg] at h; exact absurd h (by simp)
    | some v =>
      rw [hg] at h
      dsimp only at h
      by_cases hv : v = DocVal.vstr ref
      · exact ⟨d, List.mem_cons_self _ _, by rw [hg, hv]⟩
      · rw [if_neg hv] at h
        obtain ⟨d', hd', hget⟩ := ih h
        exact ⟨d', List.mem_cons_of_mem _ hd', hget⟩

/-- The per-reference loop only ever appends documents. -/
theorem passFold_grows (e : Env) : ∀ (refs : List (List Char))
    (docs : List DocDict) (seen : Bool) (out : List DocDict × Bool),
    passFold e refs docs seen = some out → docs <+: out.1 := by
  intro refs
  induction refs with
  | nil =>
    intro docs seen out h
    unfold passFold at h
    injection h with h
    subst h
    exact List.prefix_rfl
  | cons ref rest ih =>
    intro docs seen out h
    unfold passFold at h
    cases hsc : docRScan ref docs with
    | none => rw [hsc] at h; exact absurd h (by simp)
    | some b =>
      rw [hsc] at h
      cases b with
      | true =>
        dsimp only at h
        exact ih docs seen out h
      | false =>
        dsimp only at h
        cases hp : parse_str e ref with
        | none => rw [hp] at h; exact absurd h (by simp)
        | some r =>
          rw [hp] at h
          dsimp only at h
          by_cases ht : r.truthy = true
          · rw [if_pos ht] at h
            exact ih docs seen out h
          · rw [if_neg ht] at h
            exact List.IsPrefix.trans (List.prefix_append docs [new ref])
              (ih _ _ out h)

/-- The discovered-new-resources flag is never cleared within a pass. -/
theorem passFold_seen (e : Env) : ∀ (refs : List (List Char))
    (docs : List DocDict) (out : List DocDict × Bool),
    passFold e refs docs true = some out → out.2 = true := by
  intro refs
  induction refs with
  | nil =>
    intro docs out h
    unfold passFold at h
    injection h with h
    subst h
    rfl
  | cons ref rest ih =>
    intro docs out h
    unfold passFold at h
    cases hsc : docRScan ref docs with
    | none => rw [hsc] at h; exact absurd h (by simp)
    | some b =>
      rw [hsc] at h
      cases b with
      | true =>
        dsimp only at h
        exact ih docs out h
      | false =>
        dsimp only at h
        cases hp : parse_str e ref with
        | none => rw [hp] at h; exact absurd h (by simp)
        | some r =>
          rw [hp] at h
          dsimp only at h
          by_cases ht : r.truthy = true
          · rw [if_pos ht] at h; exact ih docs out h
          · rw [if_neg ht] at h; exact ih _ out h

/-- An unresolved (falsy-resolving) reference among the scanned ones
that no document of the running set declares leaves a completed pass
with its placeholder present and the flag set. -/
theorem passFold_unresolved (e : Env) (ref : List Char) (r : Value)
    (hres : parse_str e ref = some r) (hfalsy : r.truthy = false) :
    ∀ (refs : List (List Char)) (docs : List DocDict) (seen : Bool)
      (out : List DocDict × Bool),
      passFold e refs docs seen = some out → ref ∈ refs →
      ((∀ d ∈ docs, dictGet d "..r".data ≠ some (DocVal.vstr ref)) ∨
        (new ref ∈ docs ∧ seen = true)) →
      new ref ∈ out.1 ∧ out.2 = true := by
  intro refs
  induction refs with
  | nil =>
    intro docs seen out h hm hinv
    exact absurd hm (List.not_mem_nil ref)
  | cons ref' rest ih =>
    intro docs seen out h hm hinv
    unfold passFold at h
    cases hsc : docRScan ref' docs with
    | none => rw [hsc] at h; exact absurd h (by simp)
    | some b =>
      rw [hsc] at h
      cases b with
      | true =>
        dsimp only at h
        rcases List.mem_cons.1 hm with rfl | hm'
        · rcases hinv with hleft | ⟨hmem, hseen⟩
          · obtain ⟨d, hd, hget⟩ := docRScan_true ref docs hsc
            exact absurd hget (hleft d hd)
          · subst hseen
            exact ⟨(passFold_grows e rest docs true out h).subset hmem,
              passFold_seen e rest docs out h⟩
        · exact ih docs seen out h hm' hinv
      | false =>
        dsimp only at h
        cases hp : parse_str e ref' with
        | none => rw [hp] at h; exact absurd h (by simp)
        | some r' =>
          rw [hp] at h
          dsimp only at h
          by_cases ht : r'.truthy = true
          · rw [if_pos ht] at h
            rcases List.mem_cons.1 hm with rfl | hm'
            · rw [hres] at hp
              injection hp with hp
              rw [hp] at hfalsy
              rw [hfalsy] at ht
              exact absurd ht (by decide)
            · exact ih docs seen out h hm' hinv
          · rw [if_neg ht] at h
            have hinv' : (∀ d ∈ docs ++ [new ref'],
                dictGet d "..r".data ≠ some (DocVal.vstr ref)) ∨
                (new ref ∈ docs ++ [new ref'] ∧ true = true) := by
              by_cases heq : ref' = ref
              · subst heq
                exact Or.inr ⟨List.mem_append_right docs
                  (List.mem_singleton_self _), rfl⟩
              · rcases hinv with hleft | ⟨hmem, hseen⟩
                · refine Or.inl fun d hd => ?_
                  rcases List.mem_append.1 hd with hd | hd
                  · exact hleft d hd
                  · rw [List.mem_singleton] at hd
                    subst hd
                    exact dictGet_new_ne ref ref' heq
                · exact Or.inr ⟨List.mem_append_left _ hmem, rfl⟩
            rcases List.mem_cons.1 hm with rfl | hm'
            · exact ⟨(passFold_grows e rest _ true out h).subset
                (List.mem_append_right docs (List.mem_singleton_self _)),
                passFold_seen e rest _ out h⟩
            · exact ih _ true out h hm' hinv'

/-- C7: in one completed edit-loop pass (the identity scan's `KeyError`
and a failing resolution are the `none` outcome excluded by the
`scan_docs` hypothesis), a hierarchical-path reference occurring in a
non-reserved field that is not the declared `..r` identity of any
document and resolves to a falsy value leaves the document set extended
(the original documents keep their positions) with the minimal
placeholder `new ref` present and the pass marked as having discovered
new resources; and a pass that discovers no new resources terminates
the loop, returning its document set. -/
theorem claim_C7_edit_loop (e : Env) (docs : List DocDict)
    (ref : List Char) (r : Value)
    (hmem : ref ∈ docs.flatMap docRefs)
    (hnotdecl : ∀ d ∈ docs, dictGet d "..r".data ≠ some (DocVal.vstr ref))
    (hres : parse_str e ref = some r) (hfalsy : r.truthy = false)
    (out : List DocDict × Bool)
    (hscan : scan_docs e docs = some out) :
    (new ref ∈ out.1 ∧ out.2 = true ∧ docs <+: out.1) ∧
    (∀ (editor : List DocDict → List DocDict) (fuel : Nat)
        (docs' d2 : List DocDict),
      scan_docs e (editor docs') = some (d2, false) →
      edit_docs e editor (fuel + 1) docs' = some d2) := by
  have hscan' : passFold e (docs.flatMap docRefs) docs false = some out :=
    hscan
  constructor
  · have h := passFold_unresolved e ref r hres hfalsy
      (docs.flatMap docRefs) docs false out hscan' hmem (Or.inl hnotdecl)
    exact ⟨h.1, h.2, passFold_grows e (docs.flatMap docRefs) docs false
      out hscan'⟩
  · intro editor fuel docs' d2 hs
    unfold edit_docs
    rw [hs]
    rfl

/-- A document declaring the identity `/x` whose non-reserved field
holds an unresolved hierarchical reference, used by the edit-loop
witnesses. -/
def exampleDoc : DocDict :=
  .cons "..r".data (.vstr "/x".data)
    (.cons "_d".data (.vstr "/Movie/Inception".data) .nil)

/-- Witness for C7 at a concrete input: a pass over a document
referencing the not-yet-existing `/Movie/Inception` appends exactly its
placeholder and sets the flag, and the next pass (which discovers
nothing new) terminates the loop. -/
theorem claim_C7_edit_loop_witness :
    (scan_docs exampleEnv [exampleDoc]
      = some ([exampleDoc, new "/Movie/Inception".data], true)) ∧
    (new "/Movie/Inception".data
      = .cons "..r".data (.vstr "/Movie/Inception".data)
          (.cons "_type".data
            (.vlist (.cons (.vstr "_Resource".data)
              (.cons (.vstr "_Movie".data) .nil)))
            (.cons "_label".data (.vstr "Inception".data) .nil))) ∧
    new "/Movie/Inception".data ∈ [exampleDoc, new "/Movie/Inception".data] ∧
    edit_docs exampleEnv (fun x => x) 1
        [exampleDoc, new "/Movie/Inception".data]
      = some [exampleDoc, new "/Movie/Inception".data] := by
  have h := claim_C7_edit_loop exampleEnv [exampleDoc]
    "/Movie/Inception".data .vnone (by decide) (by decide) (by decide)
    (by decide) ([exampleDoc, new "/Movie/Inception".data], true) (by decide)
  exact ⟨by decide, by decide, h.1.1,
    h.2 (fun x => x) 0 [exampleDoc, new "/Movie/Inception".data]
      [exampleDoc, new "/Movie/Inception".data] (by decide)⟩

end EditLoop

section CommitOrder

/-- The commit fold visits exactly the documents of its input list, in
that list's order. -/
theorem commit_fold_fst (submitF : Env → Option Transaction → Env) :
    ∀ (l : List DocDict) (env : Env)
      (acc : List (DocDict × Option Transaction)),
      ((l.foldl (fun acc doc =>
        let t := update_from_doc acc.1 doc
        (submitF acc.1 t, acc.2 ++ [(doc, t)]))
        (env, acc)).2).map Prod.fst
      = acc.map Prod.fst ++ l := by
  intro l
  induction l with
  | nil =>
    intro env acc
    simp
  | cons d ds ih =>
    intro env acc
    rw [List.foldl_cons]
    dsimp only
    rw [ih]
    simp

/-- The documents are committed in reverse of their final ordering. -/
theorem commit_docs_fst (e : Env) (submitF : Env → Option Transaction → Env)
    (docs : List DocDict) :
    (commit_docs e submitF docs).map Prod.fst = docs.reverse := by
  unfold commit_docs
  rw [commit_fold_fst submitF docs.reverse e []]
  rfl

/-- C8: once the edit loop converges on a final document set, `edit`
commits that set in exactly the reverse of its final ordering — the
commit sequence visits every document once, its order is the reverse of
the set, and the document at a later position `j` is committed at an
earlier commit position than the document at any earlier position
`i < j` (so an appended placeholder is committed before the documents
that reference it). -/
theorem claim_C8_commit_reverse (e : Env)
    (submitF : Env → Option Transaction → Env)
    (editor : List DocDict → List DocDict) (fuel : Nat)
    (docs0 docs : List DocDict)
    (hconv : edit_docs e editor fuel docs0 = some docs) :
    edit e editor submitF fuel docs0
      = some (commit_docs e submitF docs) ∧
    (commit_docs e submitF docs).map Prod.fst = docs.reverse ∧
    (commit_docs e submitF docs).length = docs.length ∧
    (∀ j, j < docs.length →
      ((commit_docs e submitF docs).map Prod.fst)[docs.length - 1 - j]?
        = docs[j]? ∧
      ∀ i, i < j → docs.length - 1 - j < docs.length - 1 - i) := by
  refine ⟨?_, commit_docs_fst e submitF docs, ?_, ?_⟩
  · unfold edit
    rw [hconv]
    rfl
  · have h := congrArg List.length (commit_docs_fst e submitF docs)
    rw [List.length_map, List.length_reverse] at h
    exact h
  · intro j hj
    constructor
    · rw [commit_docs_fst e submitF docs]
      have hlt : docs.length - 1 - j < docs.length := by omega
      rw [List.getElem?_reverse hlt]
      have hidx : docs.length - 1 - (docs.length - 1 - j) = j := by omega
      rw [hidx]
    · intro i hij
      omega

/-- Witness for C8 at a concrete input: the loop of C7's scenario
converges on the original document followed by the appended
`/Movie/Inception` placeholder, and the commit sequence visits the
placeholder (the forward-reference target) first. -/
theorem claim_C8_commit_reverse_witness :
    (edit_docs exampleEnv (fun x => x) 2 [exampleDoc]
      = some [exampleDoc, new "/Movie/Inception".data]) ∧
    (edit exampleEnv (fun x => x) (fun env _ => env) 2 [exampleDoc]
      = some (commit_docs exampleEnv (fun env _ => env)
          [exampleDoc, new "/Movie/Inception".data])) ∧
    (commit_docs exampleEnv (fun env _ => env)
        [exampleDoc, new "/Movie/Inception".data]).map Prod.fst
      = [new "/Movie/Inception".data, exampleDoc] := by
  have h := claim_C8_commit_reverse exampleEnv (fun env _ => env)
    (fun x => x) 2 [exampleDoc] [exampleDoc, new "/Movie/Inception".data]
    (by decide)
  exact ⟨by decide, h.1, by decide⟩

end CommitOrder

end QdCli
